import Mathlib

/-!
Verification of the github-global translation webhook pipeline.

This file shallowly embeds the TypeScript sources of the repository:
  - src/lib/translation/filename-translator.ts (translateFilename, getTranslatedPath)
  - src/lib/github/webhook.ts (verifyWebhookSignature, with HMAC-SHA256 spelled out)
  - src/app/api/webhooks/github/route.ts (POST handler: delivery deduplication,
    signature check, push handling, filterFilesToTranslate, matchPath)

JavaScript strings are modelled as lists of unicode characters (`Str`).  All
string operations used by the sources (split, join, startsWith, endsWith,
lastIndexOf, includes, first-occurrence replace, global replace) are defined
here so that their semantics are explicit and executable.
-/

set_option maxHeartbeats 1000000

abbrev Str := List Char

def strOf (s : String) : Str := s.toList

/-- JavaScript `String.prototype.startsWith`. -/
def strStartsWith : Str → Str → Bool
  | _, [] => true
  | [], _ :: _ => false
  | c :: cs, p :: ps => c = p && strStartsWith cs ps

/-- JavaScript `String.prototype.endsWith`. -/
def strEndsWith (s suf : Str) : Bool :=
  strStartsWith s.reverse suf.reverse

/-- Substring occurrence test, used for JavaScript includes. -/
def strSubstr (needle : Str) : Str → Bool
  | [] => needle = []
  | c :: cs => strStartsWith (c :: cs) needle || strSubstr needle cs

/-- JavaScript `String.prototype.includes` (substring test). -/
def strIncludes (s needle : Str) : Bool :=
  strSubstr needle s

/-- JavaScript `String.prototype.split` with a one-character separator.
Matches the JS corner cases: `"".split(c) = [""]`, separators at the ends
produce empty segments. -/
def splitChar (sep : Char) : Str → List Str
  | [] => [[]]
  | c :: cs =>
    let r := splitChar sep cs
    if c = sep then [] :: r
    else
      match r with
      | [] => [[c]]
      | h :: t => (c :: h) :: t

/-- JavaScript `Array.prototype.join('/')` restricted to the one place it is
used (re-assembling a path from its segments). -/
def joinSlash : List Str → Str
  | [] => []
  | [x] => x
  | x :: xs => x ++ '/' :: joinSlash xs

/-- JavaScript `String.prototype.lastIndexOf` for a one-character needle;
`-1` when the character does not occur. -/
def lastIndexOfC (c : Char) : Str → Int
  | [] => -1
  | x :: xs =>
    let r := lastIndexOfC c xs
    if 0 ≤ r then r + 1
    else if x = c then 0 else -1

/-- JavaScript `String.prototype.replace(pat, repl)` with a *string* pattern:
replaces only the first occurrence. -/
def replaceFirst (pat repl : Str) : Str → Str
  | [] => if pat = [] then repl else []
  | c :: cs =>
    if strStartsWith (c :: cs) pat then repl ++ (c :: cs).drop pat.length
    else c :: replaceFirst pat repl cs

/-- JavaScript global replace with a *literal* string pattern: left-to-right,
non-overlapping replacement.  The fuel argument is structural; every step
consumes at least one character of the subject, so fuel equal to the length
of the subject never runs out (the zero-fuel arm is unreachable). -/
def replaceAllFuel (pat repl : Str) : Nat → Str → Str
  | _, [] => []
  | 0, s => s
  | fuel + 1, c :: cs =>
    if pat ≠ [] ∧ strStartsWith (c :: cs) pat then
      repl ++ replaceAllFuel pat repl fuel ((c :: cs).drop pat.length)
    else
      c :: replaceAllFuel pat repl fuel cs

def replaceAllLit (pat repl : Str) (s : Str) : Str :=
  replaceAllFuel pat repl s.length s

/-- Test of the character class of non-ASCII characters (code point above 127). -/
def isNonAsciiChar (c : Char) : Bool := 127 < c.toNat

/-- Function containsNonAscii from filename-translator.ts. -/
def containsNonAscii (s : Str) : Bool := s.any isNonAsciiChar

mutual
/-- Replace every maximal run of characters satisfying `p` by the single
character r (the semantics of a global regex replace of maximal p-runs).  Here
collapseRuns is the state "outside a run". -/
def collapseRuns (p : Char → Bool) (r : Char) : Str → Str
  | [] => []
  | c :: cs => if p c then insideRun p r cs else c :: collapseRuns p r cs

/-- State "inside a run of `p`-characters": the pending `r` is emitted when
the run ends. -/
def insideRun (p : Char → Bool) (r : Char) : Str → Str
  | [] => [r]
  | c :: cs => if p c then insideRun p r cs else r :: c :: collapseRuns p r cs
end

/-- First fallback step: replace each maximal non-ASCII run by one hyphen. -/
def replaceNonAsciiRuns (s : Str) : Str := collapseRuns isNonAsciiChar '-' s

/-- Second fallback step: strip leading and trailing hyphen runs. -/
def trimHyphens (s : Str) : Str :=
  ((s.dropWhile (fun c => c = '-')).reverse.dropWhile (fun c => c = '-')).reverse

/-- Third fallback step: collapse repeated hyphens into one. -/
def collapseHyphens (s : Str) : Str := collapseRuns (fun c => c = '-') '-' s

/-- The three-step hyphenation fallback of filename-translator.ts. -/
def hyphenize (s : Str) : Str :=
  collapseHyphens (trimHyphens (replaceNonAsciiRuns s))
def FILENAME_MAPPING : List (Str × Str) := [
  (strOf "自述文件", strOf "README"),
  (strOf "说明", strOf "README"),
  (strOf "介绍", strOf "Introduction"),
  (strOf "简介", strOf "Introduction"),
  (strOf "概述", strOf "Overview"),
  (strOf "概览", strOf "Overview"),
  (strOf "入门", strOf "Getting-Started"),
  (strOf "快速开始", strOf "Quick-Start"),
  (strOf "快速入门", strOf "Quick-Start"),
  (strOf "安装", strOf "Installation"),
  (strOf "安装指南", strOf "Installation-Guide"),
  (strOf "使用", strOf "Usage"),
  (strOf "使用指南", strOf "Usage-Guide"),
  (strOf "使用说明", strOf "Usage-Guide"),
  (strOf "教程", strOf "Tutorial"),
  (strOf "指南", strOf "Guide"),
  (strOf "配置", strOf "Configuration"),
  (strOf "配置说明", strOf "Configuration-Guide"),
  (strOf "常见问题", strOf "FAQ"),
  (strOf "问题", strOf "FAQ"),
  (strOf "更新日志", strOf "CHANGELOG"),
  (strOf "变更日志", strOf "CHANGELOG"),
  (strOf "变更记录", strOf "CHANGELOG"),
  (strOf "贡献", strOf "Contributing"),
  (strOf "贡献指南", strOf "Contributing-Guide"),
  (strOf "许可证", strOf "LICENSE"),
  (strOf "协议", strOf "LICENSE"),
  (strOf "作者", strOf "Authors"),
  (strOf "维护者", strOf "Maintainers"),
  (strOf "致谢", strOf "Acknowledgments"),
  (strOf "鸣谢", strOf "Acknowledgments"),
  (strOf "参考", strOf "Reference"),
  (strOf "参考文档", strOf "Reference"),
  (strOf "文档", strOf "Documentation"),
  (strOf "接口", strOf "API"),
  (strOf "接口文档", strOf "API-Documentation"),
  (strOf "开发", strOf "Development"),
  (strOf "开发指南", strOf "Development-Guide"),
  (strOf "部署", strOf "Deployment"),
  (strOf "部署指南", strOf "Deployment-Guide"),
  (strOf "架构", strOf "Architecture"),
  (strOf "设计", strOf "Design"),
  (strOf "设计文档", strOf "Design-Document"),
  (strOf "规范", strOf "Specification"),
  (strOf "标准", strOf "Standard"),
  (strOf "测试", strOf "Testing"),
  (strOf "测试指南", strOf "Testing-Guide"),
  (strOf "安全", strOf "Security"),
  (strOf "安全指南", strOf "Security-Guide"),
  (strOf "性能", strOf "Performance"),
  (strOf "优化", strOf "Optimization"),
  (strOf "示例", strOf "Examples"),
  (strOf "案例", strOf "Examples"),
  (strOf "样例", strOf "Examples"),
  (strOf "附录", strOf "Appendix"),
  (strOf "术语表", strOf "Glossary"),
  (strOf "词汇表", strOf "Glossary"),
  (strOf "索引", strOf "Index"),
  (strOf "目录", strOf "Table-of-Contents"),
  (strOf "路线图", strOf "Roadmap"),
  (strOf "计划", strOf "Roadmap"),
  (strOf "版本", strOf "Version"),
  (strOf "发布", strOf "Release"),
  (strOf "发布说明", strOf "Release-Notes"),
  (strOf "备注", strOf "Notes"),
  (strOf "笔记", strOf "Notes"),
  (strOf "总结", strOf "Summary"),
  (strOf "摘要", strOf "Summary"),
  (strOf "背景", strOf "Background"),
  (strOf "历史", strOf "History"),
  (strOf "对比", strOf "Comparison"),
  (strOf "比较", strOf "Comparison"),
  (strOf "功能", strOf "Features"),
  (strOf "特性", strOf "Features"),
  (strOf "需求", strOf "Requirements"),
  (strOf "依赖", strOf "Dependencies"),
  (strOf "兼容性", strOf "Compatibility"),
  (strOf "迁移", strOf "Migration"),
  (strOf "迁移指南", strOf "Migration-Guide"),
  (strOf "升级", strOf "Upgrade"),
  (strOf "升级指南", strOf "Upgrade-Guide"),
  (strOf "编程", strOf "Programming"),
  (strOf "编程导航", strOf "Programming-Navigation"),
  (strOf "编程学习", strOf "Programming-Learning"),
  (strOf "学习", strOf "Learning"),
  (strOf "学习路线", strOf "Learning-Path"),
  (strOf "知识", strOf "Knowledge"),
  (strOf "知识体系", strOf "Knowledge-System"),
  (strOf "知识库", strOf "Knowledge-Base"),
  (strOf "资源", strOf "Resources"),
  (strOf "资源汇总", strOf "Resource-Collection"),
  (strOf "工具", strOf "Tools"),
  (strOf "工具推荐", strOf "Recommended-Tools"),
  (strOf "框架", strOf "Framework"),
  (strOf "库", strOf "Library"),
  (strOf "项目", strOf "Project"),
  (strOf "项目介绍", strOf "Project-Introduction"),
  (strOf "项目说明", strOf "Project-Description")]

/-- Exact dictionary lookup (JavaScript object property read on the literal
FILENAME_MAPPING object; keys are distinct, so first-match lookup agrees). -/
def lookupMapping (key : Str) : Option Str :=
  (FILENAME_MAPPING.find? (fun pr => pr.1 = key)).map (fun pr => pr.2)

/-- Partial-match pass of translateFilename: iterate the dictionary entries in
declaration order and, for the first key occurring as a substring of the name,
replace its first occurrence by the English value. -/
def substMatch (name : Str) : List (Str × Str) → Option Str
  | [] => none
  | (k, v) :: rest =>
    if strIncludes name k then some (replaceFirst k v name)
    else substMatch name rest

/-- JavaScript truthiness of an optional string: undefined and the empty
string are falsy. -/
def jsFalsy : Option Str → Bool
  | none => true
  | some s => s = []

/-- Directory-segment branch of the final map in translateFilename:
dictionary value, else hyphenation fallback, else the generic name folder. -/
def dirTranslate (part : Str) : Str :=
  if containsNonAscii part then
    match lookupMapping part with
    | some v => if v = [] then (let h := hyphenize part; if h = [] then strOf "folder" else h) else v
    | none => (let h := hyphenize part; if h = [] then strOf "folder" else h)
  else part

/-- Filename-proper translation of translateFilename (the value bound to the
variable translatedName once both if-statements have run). -/
def translatedNameOf (nameWithoutExt : Str) : Str :=
  let t0 := lookupMapping nameWithoutExt
  let t1 : Option Str := if jsFalsy t0 then
      match substMatch nameWithoutExt FILENAME_MAPPING with
      | some r => some r
      | none => t0
    else t0
  match t1 with
  | some t =>
    if t = [] || containsNonAscii t then
      let h := hyphenize nameWithoutExt
      if h = [] || h = ['-'] then strOf "document" else h
    else t
  | none =>
    let h := hyphenize nameWithoutExt
    if h = [] || h = ['-'] then strOf "document" else h

/-- Final map of translateFilename: every segment except the last goes
through dirTranslate, the last segment is replaced by the new filename. -/
def mapSegs (newFilename : Str) : List Str → List Str
  | [] => []
  | [_] => [newFilename]
  | part :: rest => dirTranslate part :: mapSegs newFilename rest

/-- Index of the last dot of the final path segment (JS lastIndexOf). -/
def lastDotIndexOf (filename : Str) : Int := lastIndexOfC '.' filename

/-- Name of the final segment without its extension, as computed by
translateFilename (note: a dot at position 0 does not count as an
extension separator). -/
def nameWithoutExtOf (filename : Str) : Str :=
  if 0 < lastDotIndexOf filename then filename.take (lastDotIndexOf filename).toNat
  else filename

/-- Extension of the final segment (including the dot), as computed by
translateFilename. -/
def extensionOf (filename : Str) : Str :=
  if 0 < lastDotIndexOf filename then filename.drop (lastDotIndexOf filename).toNat
  else []

/-- Final path segment (the variable filename of translateFilename). -/
def pathFilename (p : Str) : Str := (splitChar '/' p).getLastD []

/-- The variable newFilename of translateFilename: translated name with the
original extension re-attached. -/
def newFilenameOf (p : Str) : Str :=
  translatedNameOf (nameWithoutExtOf (pathFilename p)) ++ extensionOf (pathFilename p)

/-- Function translateFilename from src/lib/translation/filename-translator.ts. -/
def translateFilename (originalPath : Str) : Str :=
  if !containsNonAscii (nameWithoutExtOf (pathFilename originalPath)) then originalPath
  else joinSlash (mapSegs (newFilenameOf originalPath) (splitChar '/' originalPath))

/-- Function getTranslatedPath from src/lib/translation/filename-translator.ts. -/
def getTranslatedPath (sourcePath targetLang baseLanguage : Str) : Str :=
  let translatedPath := if targetLang = baseLanguage then sourcePath else translateFilename sourcePath
  strOf "translations/" ++ targetLang ++ '/' :: translatedPath

/-!
Pattern matching of route.ts.

Function matchPath builds a regular expression from the user pattern with
three successive global string replaces and then tests the path against it,
anchored at both ends.  The replaces are literal and sequential, so the
output of one is rescanned by the next.  The resulting expressions only ever
use literal characters, backslash escapes, the any-character dot, the
negated class of the slash character, and the star quantifier; the parser
below accepts exactly a fragment of JavaScript regular expressions on which
the matcher semantics coincide with JavaScript, and answers none (modelling
a thrown SyntaxError or an unsupported construct) otherwise.
-/

/-- Pattern-to-regex translation of matchPath (the three replace calls). -/
def translatePattern (pattern : Str) : Str :=
  replaceAllLit (strOf ".") (strOf "\\.")
    (replaceAllLit (strOf "*") (strOf "[^/]*")
      (replaceAllLit (strOf "**") (strOf ".*") pattern))

/-- Atom of the supported regular-expression fragment. -/
inductive RAtom where
  | lit (c : Char)
  | anyChar
  | negClass (cs : List Char)
  deriving DecidableEq

/-- Characters that carry regex meaning when they appear bare, and therefore
make the conservative parser reject the expression. -/
def regexSpecialBare (c : Char) : Bool :=
  c = '(' || c = ')' || c = '|' || c = '+' || c = '?' ||
  c = '*' || c = '[' || c = '^' || c = '$' || c = '\\' || c = '{' || c = '}'

/-- Read the body of a negated character class up to the closing bracket;
only plain characters are accepted. -/
def parseClassBody : Str → Option (List Char × Str)
  | [] => none
  | c :: rest =>
    if c = ']' then some ([], rest)
    else if c = '\\' || c = '[' || c = '^' || c = '-' then none
    else match parseClassBody rest with
      | some (cs, rest2) => some (c :: cs, rest2)
      | none => none

/-- Parse one atom of the supported fragment, returning the remainder of
the input.  Backslash escapes are accepted only for non-alphanumeric
characters (where JavaScript guarantees a literal match). -/
def parseAtom : Str → Option (RAtom × Str)
  | [] => none
  | '\\' :: rest =>
    match rest with
    | [] => none
    | c :: rest2 => if c.isAlphanum then none else some (RAtom.lit c, rest2)
  | '[' :: rest =>
    match rest with
    | '^' :: rest2 =>
      match parseClassBody rest2 with
      | some (cs, rest3) => some (RAtom.negClass cs, rest3)
      | none => none
    | _ => none
  | '.' :: rest => some (RAtom.anyChar, rest)
  | c :: rest => if regexSpecialBare c then none else some (RAtom.lit c, rest)

theorem parseClassBody_length {s : Str} {cs : List Char} {rest : Str}
    (h : parseClassBody s = some (cs, rest)) : rest.length < s.length := by
  induction s generalizing cs rest with
  | nil => simp [parseClassBody] at h
  | cons c t ih =>
    unfold parseClassBody at h
    split at h
    · simp only [Option.some.injEq, Prod.mk.injEq] at h
      obtain ⟨h1, h2⟩ := h
      subst h2
      simp
    · split at h
      · cases h
      · split at h
        · rename_i cs2 rest2 heq
          simp only [Option.some.injEq, Prod.mk.injEq] at h
          obtain ⟨h1, h2⟩ := h
          subst h2
          have := ih heq
          simp
          omega
        · cases h

theorem parseAtom_length {s : Str} {a : RAtom} {rest : Str}
    (h : parseAtom s = some (a, rest)) : rest.length < s.length := by
  unfold parseAtom at h
  split at h
  · cases h
  · split at h
    · cases h
    · split at h
      · cases h
      · simp only [Option.some.injEq, Prod.mk.injEq] at h
        obtain ⟨h1, h2⟩ := h
        subst h2
        simp
        omega
  · split at h
    · split at h
      · rename_i cs2 rest2 heq
        simp only [Option.some.injEq, Prod.mk.injEq] at h
        obtain ⟨h1, h2⟩ := h
        subst h2
        have := parseClassBody_length heq
        simp at this ⊢
        omega
      · cases h
    · cases h
  · simp only [Option.some.injEq, Prod.mk.injEq] at h
    obtain ⟨h1, h2⟩ := h
    subst h2
    simp
  · split at h
    · cases h
    · simp only [Option.some.injEq, Prod.mk.injEq] at h
      obtain ⟨h1, h2⟩ := h
      subst h2
      simp

/-- Parse the supported regex fragment into a list of possibly starred
atoms.  The fuel argument is structural; parseAtom consumes at least one
character (theorem parseAtom_length), so fuel equal to the length of the
input never runs out. -/
def parseRegexFuel : Nat → Str → Option (List (RAtom × Bool))
  | _, [] => some []
  | 0, _ :: _ => none
  | fuel + 1, c :: cs =>
    match parseAtom (c :: cs) with
    | none => none
    | some (a, '*' :: rest2) => (parseRegexFuel fuel rest2).map (fun l => (a, true) :: l)
    | some (a, rest) => (parseRegexFuel fuel rest).map (fun l => (a, false) :: l)

def parseRegex (s : Str) : Option (List (RAtom × Bool)) :=
  parseRegexFuel s.length s

/-- Does a single atom match a single character. -/
def atomMatches : RAtom → Char → Bool
  | RAtom.lit c, x => x = c
  | RAtom.anyChar, _ => true
  | RAtom.negClass cs, x => !cs.contains x

/-- Anchored match of a list of possibly starred atoms against a string,
with full backtracking (equivalent to the JavaScript test of the anchored
regular expression on the supported fragment).  Every recursive call
shrinks the sum of the atom count and the subject length, so fuel equal to
that sum never runs out. -/
def rmatchFuel : Nat → List (RAtom × Bool) → Str → Bool
  | _, [], s => s.isEmpty
  | 0, _ :: _, _ => false
  | fuel + 1, (a, false) :: rest, s =>
    match s with
    | [] => false
    | c :: s2 => atomMatches a c && rmatchFuel fuel rest s2
  | fuel + 1, (a, true) :: rest, s =>
    rmatchFuel fuel rest s ||
      (match s with
       | [] => false
       | c :: s2 => atomMatches a c && rmatchFuel fuel ((a, true) :: rest) s2)

def rmatch (atoms : List (RAtom × Bool)) (s : Str) : Bool :=
  rmatchFuel (atoms.length + s.length) atoms s

/-- Function matchPath from route.ts; none models a thrown exception or a
regex construct outside the supported fragment. -/
def matchPath (path pattern : Str) : Option Bool :=
  (parseRegex (translatePattern pattern)).map (fun r => rmatch r path)

/-- Short-circuit JavaScript some over a pattern list, propagating a thrown
exception as none. -/
def someMatch (patterns : List Str) (file : Str) : Option Bool :=
  match patterns with
  | [] => some false
  | p :: ps =>
    match matchPath file p with
    | none => none
    | some true => some true
    | some false => someMatch ps file

/-- Step 3 of the filter callback: when exclude patterns are configured, a
file matching any of them is dropped; a thrown exception propagates;
otherwise the continuation (the include check) decides. -/
def excludeGate (excludePaths : Option (List Str)) (file : Str) (k : Option Bool) :
    Option Bool :=
  match excludePaths with
  | some ex =>
    match someMatch ex file with
    | none => none
    | some true => some false
    | some false => k
  | none => k

/-- Step 4 of the filter callback: a non-empty include list keeps only
matching files; an empty or absent list keeps everything. -/
def includeGate (includePaths : Option (List Str)) (file : Str) : Option Bool :=
  match includePaths with
  | some il => if il.length ≠ 0 then someMatch il file else some true
  | none => some true

/-- Per-file predicate of filterFilesToTranslate (the filter callback):
markdown extension, translations prefix, exclude patterns, include
patterns, in the order of route.ts. -/
def shouldTranslate (includePaths excludePaths : Option (List Str)) (file : Str) :
    Option Bool :=
  if !(strEndsWith file (strOf ".md")) && !(strEndsWith file (strOf ".mdx")) then some false
  else if strStartsWith file (strOf "translations/") then some false
  else excludeGate excludePaths file (includeGate includePaths file)

/-- Function filterFilesToTranslate from route.ts; none models the handler
aborting with a thrown exception. -/
def filterFilesToTranslate (files : List Str) (includePaths excludePaths : Option (List Str)) :
    Option (List Str) :=
  match files with
  | [] => some []
  | f :: fs =>
    match shouldTranslate includePaths excludePaths f with
    | none => none
    | some b =>
      match filterFilesToTranslate fs includePaths excludePaths with
      | none => none
      | some rest => some (if b then f :: rest else rest)

/-!
HMAC-SHA256, as performed by the Node crypto module inside
verifyWebhookSignature (src/lib/github/webhook.ts).  Machine words are
natural numbers reduced modulo 2 to the 32 explicitly; bitwise operations
are computed bit by bit with division and remainder.
-/

def w32 (n : Nat) : Nat := n % 4294967296

/-- Generic 32-bit bitwise combinator, computed bit by bit. -/
def bitop (f : Bool → Bool → Bool) : Nat → Nat → Nat → Nat
  | 0, _, _ => 0
  | k + 1, a, b =>
    (if f (a % 2 = 1) (b % 2 = 1) then 1 else 0) + 2 * bitop f k (a / 2) (b / 2)

def xor32 (a b : Nat) : Nat := bitop (fun x y => xor x y) 32 a b
def and32 (a b : Nat) : Nat := bitop (fun x y => x && y) 32 a b
def or32 (a b : Nat) : Nat := bitop (fun x y => x || y) 32 a b
def not32 (a : Nat) : Nat := 4294967295 - w32 a
def shr32 (n x : Nat) : Nat := x / 2 ^ n
def rotr32 (n x : Nat) : Nat := w32 (x / 2 ^ n + (x % 2 ^ n) * 2 ^ (32 - n))

def sha256K : List Nat := [
  1116352408, 1899447441, 3049323471, 3921009573, 961987163, 1508970993,
  2453635748, 2870763221, 3624381080, 310598401, 607225278, 1426881987,
  1925078388, 2162078206, 2614888103, 3248222580, 3835390401, 4022224774,
  264347078, 604807628, 770255983, 1249150122, 1555081692, 1996064986,
  2554220882, 2821834349, 2952996808, 3210313671, 3336571891, 3584528711,
  113926993, 338241895, 666307205, 773529912, 1294757372, 1396182291,
  1695183700, 1986661051, 2177026350, 2456956037, 2730485921, 2820302411,
  3259730800, 3345764771, 3516065817, 3600352804, 4094571909, 275423344,
  430227734, 506948616, 659060556, 883997877, 958139571, 1322822218,
  1537002063, 1747873779, 1955562222, 2024104815, 2227730452, 2361852424,
  2428436474, 2756734187, 3204031479, 3329325298]

structure SHAState where
  a : Nat
  b : Nat
  c : Nat
  d : Nat
  e : Nat
  f : Nat
  g : Nat
  h : Nat

def sha256Init : SHAState :=
  ⟨1779033703, 3144134277, 1013904242, 2773480762,
   1359893119, 2600822924, 528734635, 1541459225⟩

def bigSigma0 (x : Nat) : Nat := xor32 (rotr32 2 x) (xor32 (rotr32 13 x) (rotr32 22 x))
def bigSigma1 (x : Nat) : Nat := xor32 (rotr32 6 x) (xor32 (rotr32 11 x) (rotr32 25 x))
def smallSigma0 (x : Nat) : Nat := xor32 (rotr32 7 x) (xor32 (rotr32 18 x) (shr32 3 x))
def smallSigma1 (x : Nat) : Nat := xor32 (rotr32 17 x) (xor32 (rotr32 19 x) (shr32 10 x))
def shaCh (x y z : Nat) : Nat := xor32 (and32 x y) (and32 (not32 x) z)
def shaMaj (x y z : Nat) : Nat := xor32 (and32 x y) (xor32 (and32 x z) (and32 y z))

/-- One round of the SHA-256 compression function. -/
def shaRound (st : SHAState) (kw : Nat × Nat) : SHAState :=
  let t1 := w32 (st.h + bigSigma1 st.e + shaCh st.e st.f st.g + kw.1 + kw.2)
  let t2 := w32 (bigSigma0 st.a + shaMaj st.a st.b st.c)
  ⟨w32 (t1 + t2), st.a, st.b, st.c, w32 (st.d + t1), st.e, st.f, st.g⟩

/-- Big-endian decoding of four bytes into a 32-bit word, over the block. -/
def bytesToWords : List Nat → List Nat
  | b0 :: b1 :: b2 :: b3 :: rest => (((b0 * 256 + b1) * 256 + b2) * 256 + b3) :: bytesToWords rest
  | _ => []

/-- Message-schedule extension, building the word list in reverse. -/
def extendSchedule : Nat → List Nat → List Nat
  | 0, rw => rw
  | k + 1, rw =>
    let nw := w32 (smallSigma1 (rw.getD 1 0) + rw.getD 6 0 + smallSigma0 (rw.getD 14 0) + rw.getD 15 0)
    extendSchedule k (nw :: rw)

/-- Process one 64-byte block. -/
def shaBlock (hs : SHAState) (block : List Nat) : SHAState :=
  let ws := (extendSchedule 48 (bytesToWords block).reverse).reverse
  let st := (sha256K.zip ws).foldl shaRound hs
  ⟨w32 (hs.a + st.a), w32 (hs.b + st.b), w32 (hs.c + st.c), w32 (hs.d + st.d),
   w32 (hs.e + st.e), w32 (hs.f + st.f), w32 (hs.g + st.g), w32 (hs.h + st.h)⟩

/-- Split a byte list into 64-byte chunks; the structural fuel equal to the
length of the list never runs out since every step drops at least one
element. -/
def chunk64Fuel : Nat → List Nat → List (List Nat)
  | _, [] => []
  | 0, _ :: _ => []
  | fuel + 1, c :: cs => (c :: cs).take 64 :: chunk64Fuel fuel ((c :: cs).drop 64)

def chunk64 (l : List Nat) : List (List Nat) :=
  chunk64Fuel l.length l

/-- Big-endian encoding of a number into the given count of bytes. -/
def beBytes : Nat → Nat → List Nat
  | 0, _ => []
  | k + 1, n => beBytes k (n / 256) ++ [n % 256]

/-- SHA-256 padding: one 0x80 byte, zeros to 56 modulo 64, then the
bit length in eight big-endian bytes. -/
def sha256Pad (msg : List Nat) : List Nat :=
  let l := msg.length
  let zeros := (55 + 64 - l % 64) % 64
  msg ++ 0x80 :: List.replicate zeros 0 ++ beBytes 8 (l * 8)

def wordsToBytes (ws : List Nat) : List Nat :=
  ws.flatMap (fun w => beBytes 4 w)

/-- SHA-256 of a byte list, as a list of 32 bytes. -/
def sha256 (msg : List Nat) : List Nat :=
  let hs := (chunk64 (sha256Pad msg)).foldl shaBlock sha256Init
  wordsToBytes [hs.a, hs.b, hs.c, hs.d, hs.e, hs.f, hs.g, hs.h]

def hexDigit (n : Nat) : Char :=
  (strOf "0123456789abcdef").getD n '0'

/-- Lowercase hexadecimal rendering of a byte list. -/
def bytesToHex (bs : List Nat) : Str :=
  bs.flatMap (fun b => [hexDigit (b / 16), hexDigit (b % 16)])

/-- UTF-8 encoding of one character. -/
def utf8Bytes (c : Char) : List Nat :=
  let n := c.toNat
  if n < 0x80 then [n]
  else if n < 0x800 then [0xC0 + n / 64, 0x80 + n % 64]
  else if n < 0x10000 then [0xE0 + n / 4096, 0x80 + n / 64 % 64, 0x80 + n % 64]
  else [0xF0 + n / 262144, 0x80 + n / 4096 % 64, 0x80 + n / 64 % 64, 0x80 + n % 64]

/-- UTF-8 encoding of a string (Node Buffer.from with utf8 default). -/
def utf8Encode (s : Str) : List Nat :=
  s.flatMap utf8Bytes

/-- HMAC-SHA256 (RFC 2104) with a 64-byte block size, as computed by
crypto.createHmac. -/
def hmacSha256 (key msg : List Nat) : List Nat :=
  let k0 := if 64 < key.length then sha256 key else key
  let kp := k0 ++ List.replicate (64 - k0.length) 0
  let ipadKey := kp.map (fun b => xor32 b 0x36)
  let opadKey := kp.map (fun b => xor32 b 0x5c)
  sha256 (opadKey ++ sha256 (ipadKey ++ msg))

/-- Digest string computed inside verifyWebhookSignature. -/
def hmacHexDigest (secret payload : Str) : Str :=
  strOf "sha256=" ++ bytesToHex (hmacSha256 (utf8Encode secret) (utf8Encode payload))

/-- Function verifyWebhookSignature from src/lib/github/webhook.ts.  The
timing-safe equality throws on length mismatch and the exception is caught
and turned into false, so the comparison is plain string equality of the
signature header with the expected digest; an absent or wrongly prefixed
header fails first. -/
def verifyWebhookSignature (payload signature secret : Str) : Bool :=
  if signature = [] || !strStartsWith signature (strOf "sha256=") then false
  else signature == hmacHexDigest secret payload

/-!
Webhook POST handler of src/app/api/webhooks/github/route.ts.

The handler is modelled as a pure function of the request, the current time
(Date.now), the module-global delivery cache, the configured secret (the
GITHUB_WEBHOOK_SECRET environment variable, absent when getWebhookSecret
throws) and the repository table (the prisma findFirst query keyed by the
GitHub repository id).  It returns the updated delivery cache and the
response outcome.  The JSON body is modelled as the raw payload string
together with its parsed push event.
-/

/-- One element of the commits array of a push event.  The message field is
present in the delivered JSON; the handler interface declares only id,
added, modified and removed, and the handler never reads the message of a
non-head commit. -/
structure PushCommit where
  id : Str
  message : Str
  added : List Str
  modified : List Str
  removed : List Str

/-- Parsed push event (the fields route.ts reads). -/
structure PushEvent where
  ref : Str
  repoId : Int
  defaultBranch : Str
  commits : List PushCommit
  headCommitMessage : Option Str

/-- Stored repository configuration (prisma RepoConfig fields the handler
reads). -/
structure RepoConfig where
  autoTranslate : Bool
  includePaths : Option (List Str)
  excludePaths : Option (List Str)
  targetLanguages : Option (List Str)

/-- Stored repository row with its optional configuration. -/
structure RepoRecord where
  userId : Int
  repoDbId : Int
  config : Option RepoConfig

/-- An incoming webhook request. -/
structure WebhookRequest where
  deliveryId : Option Str
  signature : Option Str
  event : Option Str
  payload : Str
  parsed : PushEvent

/-- The delivery-deduplication cache (the module-global Map from delivery id
to expiry time). -/
abbrev DeliveryCache := List (Str × Nat)

def DELIVERY_CACHE_TTL : Nat := 60 * 1000

/-- Function cleanupDeliveryCache from route.ts: delete every entry whose
expiry time is strictly in the past. -/
def cleanupDeliveryCache (m : DeliveryCache) (now : Nat) : DeliveryCache :=
  m.filter (fun e => !(e.2 < now))

/-- Map.has on the cache. -/
def cacheHas (m : DeliveryCache) (k : Str) : Bool :=
  (m.find? (fun e => e.1 = k)).isSome

/-- Map.get on the cache. -/
def cacheFind (m : DeliveryCache) (k : Str) : Option Nat :=
  (m.find? (fun e => e.1 = k)).map (fun e => e.2)

/-- Map.set on the cache: replace in place if present, append otherwise. -/
def cacheSet (m : DeliveryCache) (k : Str) (v : Nat) : DeliveryCache :=
  if cacheHas m k then m.map (fun e => if e.1 = k then (k, v) else e)
  else m ++ [(k, v)]

/-- Response outcome of the POST handler, one constructor per return site. -/
inductive Outcome where
  | duplicateIgnored
  | missingSignature
  | webhookNotConfigured
  | invalidSignature
  | eventIgnored
  | nonDefaultBranch
  | selfCommitIgnored
  | repoNotImported
  | repoNotConfigured
  | autoTranslateDisabled
  | noTranslatableFiles
  | noTargetLanguages
  | taskCreated (files : List Str) (targetLanguages : List Str)
  | internalError
  deriving DecidableEq

/-- HTTP status of each outcome (NextResponse.json status argument,
defaulting to 200). -/
def statusOf : Outcome → Nat
  | Outcome.missingSignature => 401
  | Outcome.invalidSignature => 401
  | Outcome.webhookNotConfigured => 500
  | Outcome.internalError => 500
  | _ => 200

/-- Whether the outcome created (and enqueued) a translation task. -/
def isTaskCreated : Outcome → Bool
  | Outcome.taskCreated _ _ => true
  | _ => false

/-- Step 10 of the handler: union added and modified files across commits
into a JavaScript Set, which keeps first-insertion order. -/
def addUnique (acc : List Str) (x : Str) : List Str :=
  if x ∈ acc then acc else acc ++ [x]

def collectChanged (commits : List PushCommit) : List Str :=
  commits.foldl (fun acc c => (c.added ++ c.modified).foldl addUnique acc) []

/-- The self-commit marker checked at step 7. -/
def selfCommitMarker : Str := strOf "[GitHub Global]"

/-- Steps 6 to 14 of the handler: branch check, self-commit check,
repository lookup, configuration checks, file collection and filtering,
task creation. -/
def handlePush (lookup : Int → Option RepoRecord) (data : PushEvent) : Outcome :=
  if replaceFirst (strOf "refs/heads/") [] data.ref ≠ data.defaultBranch then
    Outcome.nonDefaultBranch
  else if (match data.headCommitMessage with
           | some m => strStartsWith m selfCommitMarker
           | none => false) then Outcome.selfCommitIgnored
  else match lookup data.repoId with
    | none => Outcome.repoNotImported
    | some repo =>
      match repo.config with
      | none => Outcome.repoNotConfigured
      | some cfg =>
        if !cfg.autoTranslate then Outcome.autoTranslateDisabled
        else
          match filterFilesToTranslate (collectChanged data.commits)
              cfg.includePaths cfg.excludePaths with
          | none => Outcome.internalError
          | some [] => Outcome.noTranslatableFiles
          | some files =>
            match cfg.targetLanguages with
            | none => Outcome.noTargetLanguages
            | some [] => Outcome.noTargetLanguages
            | some langs => Outcome.taskCreated files langs

/-- Steps 3 and 4: dispatch on the event header. -/
def handleEvent (lookup : Int → Option RepoRecord) (event : Option Str) (data : PushEvent) :
    Outcome :=
  if event ≠ some (strOf "push") then Outcome.eventIgnored
  else handlePush lookup data

/-- Steps 1 and 2: read the body, check the signature header, read the
secret, verify the signature.  The delivery cache is no longer touched. -/
def afterDedup (secretOpt : Option Str) (lookup : Int → Option RepoRecord)
    (req : WebhookRequest) : Outcome :=
  match req.signature with
  | none => Outcome.missingSignature
  | some sig =>
    match secretOpt with
    | none => Outcome.webhookNotConfigured
    | some secret =>
      if !verifyWebhookSignature req.payload sig secret then Outcome.invalidSignature
      else handleEvent lookup req.event req.parsed

/-- Function POST from route.ts as a pure transition on the delivery cache.
Step 0 runs first: when a delivery id is present the cache is cleaned, a
repeated id short-circuits with the duplicate response, and a fresh id is
recorded (before any signature checking). -/
def processWebhook (secretOpt : Option Str) (lookup : Int → Option RepoRecord)
    (now : Nat) (cache : DeliveryCache) (req : WebhookRequest) :
    DeliveryCache × Outcome :=
  match req.deliveryId with
  | some id =>
    if cacheHas (cleanupDeliveryCache cache now) id then
      (cleanupDeliveryCache cache now, Outcome.duplicateIgnored)
    else
      (cacheSet (cleanupDeliveryCache cache now) id (now + DELIVERY_CACHE_TTL),
       afterDedup secretOpt lookup req)
  | none => (cache, afterDedup secretOpt lookup req)

/-! Basic lemmas about the string primitives and the pipeline steps. -/

theorem strStartsWith_append (p t : Str) : strStartsWith (p ++ t) p = true := by
  induction p with
  | nil => cases t <;> rfl
  | cons c cs ih => simp [strStartsWith, ih]

theorem verify_digest (secret payload : Str) :
    verifyWebhookSignature payload (hmacHexDigest secret payload) secret = true := by
  have hne : hmacHexDigest secret payload ≠ [] := by
    unfold hmacHexDigest
    intro hcontra
    rcases List.append_eq_nil.mp hcontra with ⟨h1, _⟩
    exact absurd h1 (by decide)
  have hpre : strStartsWith (hmacHexDigest secret payload) (strOf "sha256=") = true := by
    unfold hmacHexDigest
    exact strStartsWith_append _ _
  unfold verifyWebhookSignature
  simp [hne, hpre]

theorem verify_false_of_bad (payload sig secret : Str)
    (h : strStartsWith sig (strOf "sha256=") = false ∨ sig ≠ hmacHexDigest secret payload) :
    verifyWebhookSignature payload sig secret = false := by
  unfold verifyWebhookSignature
  rcases h with h | h
  · simp [h]
  · by_cases hp : (sig = [] || !strStartsWith sig (strOf "sha256=")) = true
    · simp [hp]
    · simp only [hp, Bool.false_eq_true, if_false]
      exact beq_eq_false_iff_ne.mpr h

theorem processWebhook_noDelivery (secretOpt : Option Str) (lookup : Int → Option RepoRecord)
    (now : Nat) (cache : DeliveryCache) (req : WebhookRequest)
    (hid : req.deliveryId = none) :
    processWebhook secretOpt lookup now cache req = (cache, afterDedup secretOpt lookup req) := by
  unfold processWebhook
  rw [hid]

theorem processWebhook_fresh (secretOpt : Option Str) (lookup : Int → Option RepoRecord)
    (now : Nat) (cache : DeliveryCache) (req : WebhookRequest) (id : Str)
    (hid : req.deliveryId = some id)
    (hfresh : cacheHas (cleanupDeliveryCache cache now) id = false) :
    processWebhook secretOpt lookup now cache req =
      (cacheSet (cleanupDeliveryCache cache now) id (now + DELIVERY_CACHE_TTL),
       afterDedup secretOpt lookup req) := by
  unfold processWebhook
  rw [hid]
  simp [hfresh]

theorem processWebhook_dup (secretOpt : Option Str) (lookup : Int → Option RepoRecord)
    (now : Nat) (cache : DeliveryCache) (req : WebhookRequest) (id : Str)
    (hid : req.deliveryId = some id)
    (hdup : cacheHas (cleanupDeliveryCache cache now) id = true) :
    processWebhook secretOpt lookup now cache req =
      (cleanupDeliveryCache cache now, Outcome.duplicateIgnored) := by
  unfold processWebhook
  rw [hid]
  simp [hdup]

theorem afterDedup_valid (secret : Str) (lookup : Int → Option RepoRecord)
    (req : WebhookRequest) (sig : Str)
    (hsig : req.signature = some sig)
    (hver : verifyWebhookSignature req.payload sig secret = true) :
    afterDedup (some secret) lookup req = handleEvent lookup req.event req.parsed := by
  unfold afterDedup
  rw [hsig]
  simp [hver]

theorem handleEvent_push (lookup : Int → Option RepoRecord) (data : PushEvent) :
    handleEvent lookup (some (strOf "push")) data = handlePush lookup data := by
  unfold handleEvent
  simp

theorem cacheFind_set_self (m : DeliveryCache) (k : Str) (v : Nat) :
    cacheFind (cacheSet m k v) k = some v := by
  unfold cacheSet
  by_cases h : cacheHas m k = true
  · simp only [h, if_true]
    unfold cacheHas at h
    unfold cacheFind
    induction m with
    | nil => simp at h
    | cons e rest ih =>
      by_cases he : e.1 = k
      · simp [List.find?_cons, he]
      · have he3 : (decide (e.1 = k)) = false := by simpa using he
        simp only [List.map_cons, if_neg he]
        simp only [List.find?_cons, he3] at h ⊢
        exact ih h
  · simp only [h, Bool.false_eq_true, if_false]
    unfold cacheHas at h
    unfold cacheFind
    induction m with
    | nil => simp [List.find?_cons]
    | cons e rest ih =>
      by_cases he : e.1 = k
      · exfalso
        simp [List.find?_cons, he] at h
      · have he3 : (decide (e.1 = k)) = false := by simpa using he
        simp only [List.cons_append]
        simp only [List.find?_cons, he3] at h ⊢
        exact ih h

theorem cacheFind_cleanup (m : DeliveryCache) (now : Nat) (k : Str) (v : Nat)
    (hfind : cacheFind m k = some v) (hlive : ¬ v < now) :
    cacheFind (cleanupDeliveryCache m now) k = some v := by
  unfold cacheFind cleanupDeliveryCache at *
  induction m with
  | nil => simp at hfind
  | cons e rest ih =>
    by_cases he : e.1 = k
    · have he3 : (decide (e.1 = k)) = true := by simpa using he
      simp only [List.find?_cons, he3] at hfind
      have hv : e.2 = v := by simpa using hfind
      have hkeep : ((!decide (e.2 < now)) = true) := by
        simp [hv, hlive]
      simp only [List.filter_cons, hkeep, if_true]
      simp only [List.find?_cons, he3]
      simp [hv]
    · have he3 : (decide (e.1 = k)) = false := by simpa using he
      simp only [List.find?_cons, he3] at hfind
      by_cases hkeep : ((!decide (e.2 < now)) = true)
      · simp only [List.filter_cons, hkeep, if_true]
        simp only [List.find?_cons, he3]
        exact ih hfind
      · have hk2 : (!decide (e.2 < now)) = false := by
          simpa using hkeep
        simp only [List.filter_cons, hk2, Bool.false_eq_true, if_false]
        exact ih hfind

theorem cacheHas_of_find (m : DeliveryCache) (k : Str) (v : Nat)
    (h : cacheFind m k = some v) : cacheHas m k = true := by
  unfold cacheFind at h
  unfold cacheHas
  cases hf : List.find? (fun e => e.1 = k) m with
  | none => rw [hf] at h; simp at h
  | some e => simp [hf]

theorem handlePush_ne_dup (lookup : Int → Option RepoRecord) (data : PushEvent) :
    handlePush lookup data ≠ Outcome.duplicateIgnored := by
  unfold handlePush
  intro hcontra
  repeat' split at hcontra
  all_goals simp_all

theorem afterDedup_ne_dup (secretOpt : Option Str) (lookup : Int → Option RepoRecord)
    (req : WebhookRequest) :
    afterDedup secretOpt lookup req ≠ Outcome.duplicateIgnored := by
  unfold afterDedup handleEvent
  intro hcontra
  repeat' split at hcontra
  all_goals first
  | exact handlePush_ne_dup lookup req.parsed hcontra
  | simp_all

theorem second_call_dup (secretOpt : Option Str) (lookup : Int → Option RepoRecord)
    (now1 now2 : Nat) (cache : DeliveryCache) (id : Str) (r2 : WebhookRequest)
    (h2 : r2.deliveryId = some id) (hwin : now2 ≤ now1 + DELIVERY_CACHE_TTL) :
    processWebhook secretOpt lookup now2
      (cacheSet (cleanupDeliveryCache cache now1) id (now1 + DELIVERY_CACHE_TTL)) r2 =
    (cleanupDeliveryCache
       (cacheSet (cleanupDeliveryCache cache now1) id (now1 + DELIVERY_CACHE_TTL)) now2,
     Outcome.duplicateIgnored) := by
  apply processWebhook_dup _ _ _ _ _ id h2
  exact cacheHas_of_find _ _ _
    (cacheFind_cleanup _ _ _ _ (cacheFind_set_self _ _ _) (by omega))

/-! Concrete scenarios used by the end-to-end claims. -/

def scenarioAConfig : RepoConfig := ⟨true, none, none, some [strOf "en", strOf "ja"]⟩

def scenarioALookup : Int → Option RepoRecord :=
  fun i => if i = 42 then some ⟨7, 1, some scenarioAConfig⟩ else none

/-- Scenario A push: one commit adding docs/介绍.md and node_modules/x.md on
the default branch. -/
def scenarioAEvent : PushEvent :=
  ⟨strOf "refs/heads/main", 42, strOf "main",
   [⟨strOf "c1", strOf "docs update", [strOf "docs/介绍.md", strOf "node_modules/x.md"], [], []⟩],
   some (strOf "docs update")⟩

theorem handlePush_scenarioA :
    handlePush scenarioALookup scenarioAEvent =
      Outcome.taskCreated [strOf "docs/介绍.md", strOf "node_modules/x.md"]
        [strOf "en", strOf "ja"] := by decide

/-- Scenario for claim C5: the first commit of the push carries the
self-commit marker, the head commit does not. -/
def scenarioBEvent : PushEvent :=
  ⟨strOf "refs/heads/main", 42, strOf "main",
   [⟨strOf "c0", strOf "[GitHub Global] sync translations", [strOf "a.md"], [], []⟩,
    ⟨strOf "c1", strOf "update guide", [strOf "b.md"], [], []⟩],
   some (strOf "update guide")⟩

theorem handlePush_scenarioB :
    handlePush scenarioALookup scenarioBEvent =
      Outcome.taskCreated [strOf "a.md", strOf "b.md"] [strOf "en", strOf "ja"] := by decide

/-- Claim C1: matchPath is documented (comment in route.ts and the spec) to
translate the double star to a dot-star regex so that docs/** matches
docs/setup.md, but the three sequential replaces corrupt one another: the
dot-star inserted for the double star is rewritten by the single-star and
dot-escape passes into the regex docs/backslash-dot-bracket-caret-slash
-bracket-star, which only matches hidden entries directly under docs.  At
the failing input of end-to-end scenario D, docs/setup.md does not match
docs/** and filtering with includePaths docs/** drops every file. -/
theorem C1_matchPath_code_bug :
    translatePattern (strOf "docs/**") = strOf "docs/\\.[^/]*" ∧
    matchPath (strOf "docs/setup.md") (strOf "docs/**") = some false ∧
    matchPath (strOf "docs/.hidden") (strOf "docs/**") = some true ∧
    filterFilesToTranslate [strOf "guide.md", strOf "docs/setup.md"]
      (some [strOf "docs/**"]) none = some [] := by decide

/-- Claim C3 counterexample: for the base language the returned path is not
the source path passed through unchanged; it is still joined under the
per-language output prefix. -/
theorem C3_counterexample :
    getTranslatedPath (strOf "README.md") (strOf "en") (strOf "en") =
      strOf "translations/en/README.md" ∧
    getTranslatedPath (strOf "README.md") (strOf "en") (strOf "en") ≠ strOf "README.md" := by
  decide

/-- Claim C3 (amended): when the target language equals the base language,
getTranslatedPath skips the transliteration (the path component is the
untransliterated source path) but still joins it under the per-language
output prefix translations/targetLang/. -/
theorem C3_base_language_mirrored (sourcePath lang base : Str) (h : lang = base) :
    getTranslatedPath sourcePath lang base =
      strOf "translations/" ++ lang ++ '/' :: sourcePath := by
  unfold getTranslatedPath
  simp [h]

theorem C3_base_language_mirrored_witness :
    getTranslatedPath (strOf "docs/a.md") (strOf "en") (strOf "en") =
      strOf "translations/" ++ strOf "en" ++ '/' :: strOf "docs/a.md" :=
  C3_base_language_mirrored _ _ _ rfl

/-- Claim C2 counterexample: in end-to-end scenario A both changed files,
docs/介绍.md and node_modules/x.md, are queued; no skip-directory exclusion
runs anywhere in the webhook path, so the claimed single-file task is not
what the code produces. -/
theorem C2_counterexample :
    (processWebhook (some (strOf "sec")) scenarioALookup 0 []
      ⟨none, some (hmacHexDigest (strOf "sec") (strOf "rawbody")), some (strOf "push"),
       strOf "rawbody", scenarioAEvent⟩).2 =
      Outcome.taskCreated [strOf "docs/介绍.md", strOf "node_modules/x.md"]
        [strOf "en", strOf "ja"] ∧
    [strOf "docs/介绍.md", strOf "node_modules/x.md"] ≠ [strOf "docs/介绍.md"] := by
  constructor
  · rw [processWebhook_noDelivery _ _ _ _ _ rfl,
      afterDedup_valid _ _ _ _ rfl (verify_digest _ _)]
    show handleEvent scenarioALookup (some (strOf "push")) scenarioAEvent = _
    rw [handleEvent_push, handlePush_scenarioA]
  · decide

/-- Claim C2 (amended): in end-to-end scenario A exactly two files are
queued, docs/介绍.md and node_modules/x.md, because the webhook path applies
only the markdown-extension, translations-prefix and include/exclude
pattern filter; the skip-directory list is consulted only by the repository
tree scanners, which are not part of the webhook flow. -/
theorem C2_scenarioA_queues_both (secret payload sig : Str) (now : Nat)
    (cache : DeliveryCache)
    (hver : verifyWebhookSignature payload sig secret = true) :
    processWebhook (some secret) scenarioALookup now cache
      ⟨none, some sig, some (strOf "push"), payload, scenarioAEvent⟩ =
    (cache, Outcome.taskCreated [strOf "docs/介绍.md", strOf "node_modules/x.md"]
      [strOf "en", strOf "ja"]) := by
  have hout : afterDedup (some secret) scenarioALookup
      ⟨none, some sig, some (strOf "push"), payload, scenarioAEvent⟩ =
      Outcome.taskCreated [strOf "docs/介绍.md", strOf "node_modules/x.md"]
        [strOf "en", strOf "ja"] := by
    rw [afterDedup_valid secret scenarioALookup
      ⟨none, some sig, some (strOf "push"), payload, scenarioAEvent⟩ sig rfl hver]
    show handleEvent scenarioALookup (some (strOf "push")) scenarioAEvent = _
    rw [handleEvent_push, handlePush_scenarioA]
  rw [processWebhook_noDelivery _ _ _ _ _ rfl, hout]

theorem C2_scenarioA_queues_both_witness :
    processWebhook (some (strOf "sec")) scenarioALookup 0 []
      ⟨none, some (hmacHexDigest (strOf "sec") (strOf "rawbody")), some (strOf "push"),
       strOf "rawbody", scenarioAEvent⟩ =
    ([], Outcome.taskCreated [strOf "docs/介绍.md", strOf "node_modules/x.md"]
      [strOf "en", strOf "ja"]) :=
  C2_scenarioA_queues_both _ _ _ _ _ (verify_digest _ _)

/-- Claim C5 counterexample: a push whose first commit message carries the
self-commit marker but whose head commit does not still creates a task, so
the skip does not extend to every commit of the push. -/
theorem C5_counterexample :
    strStartsWith (strOf "[GitHub Global] sync translations") selfCommitMarker = true ∧
    scenarioBEvent.commits.map (fun c => c.message) =
      [strOf "[GitHub Global] sync translations", strOf "update guide"] ∧
    (processWebhook (some (strOf "sec")) scenarioALookup 0 []
      ⟨none, some (hmacHexDigest (strOf "sec") (strOf "rawbody")), some (strOf "push"),
       strOf "rawbody", scenarioBEvent⟩).2 =
      Outcome.taskCreated [strOf "a.md", strOf "b.md"] [strOf "en", strOf "ja"] := by
  refine ⟨by decide, by decide, ?_⟩
  rw [processWebhook_noDelivery _ _ _ _ _ rfl,
    afterDedup_valid _ _ _ _ rfl (verify_digest _ _)]
  show handleEvent scenarioALookup (some (strOf "push")) scenarioBEvent = _
  rw [handleEvent_push, handlePush_scenarioB]

/-- Claim C5 (amended): the self-commit check consults only the head commit
of the push.  For every push event to the default branch whose head commit
message starts with the self-commit marker, the handler answers with the
self-commit skip and no translation task is created, whatever the other
commits contain. -/
theorem C5_head_marker_skip (secret : Str) (lookup : Int → Option RepoRecord)
    (now : Nat) (cache : DeliveryCache) (req : WebhookRequest) (sig m : Str)
    (hded : req.deliveryId = none ∨ ∃ id, req.deliveryId = some id ∧
        cacheHas (cleanupDeliveryCache cache now) id = false)
    (hsig : req.signature = some sig)
    (hver : verifyWebhookSignature req.payload sig secret = true)
    (hev : req.event = some (strOf "push"))
    (hbr : replaceFirst (strOf "refs/heads/") [] req.parsed.ref = req.parsed.defaultBranch)
    (hmsg : req.parsed.headCommitMessage = some m)
    (hmark : strStartsWith m selfCommitMarker = true) :
    (processWebhook (some secret) lookup now cache req).2 = Outcome.selfCommitIgnored ∧
    isTaskCreated (processWebhook (some secret) lookup now cache req).2 = false := by
  have hout : afterDedup (some secret) lookup req = Outcome.selfCommitIgnored := by
    rw [afterDedup_valid secret lookup req sig hsig hver, hev, handleEvent_push]
    unfold handlePush
    rw [hmsg]
    simp [hbr, hmark]
  rcases hded with hnone | ⟨id, hid, hfresh⟩
  · rw [processWebhook_noDelivery _ _ _ _ _ hnone]
    simp [hout, isTaskCreated]
  · rw [processWebhook_fresh _ _ _ _ _ id hid hfresh]
    simp [hout, isTaskCreated]

theorem C5_head_marker_skip_witness :
    (processWebhook (some (strOf "sec")) scenarioALookup 0 []
      ⟨none, some (hmacHexDigest (strOf "sec") (strOf "rawbody")), some (strOf "push"),
       strOf "rawbody",
       ⟨strOf "refs/heads/main", 42, strOf "main", [],
        some (strOf "[GitHub Global] sync translations")⟩⟩).2 =
      Outcome.selfCommitIgnored ∧
    isTaskCreated (processWebhook (some (strOf "sec")) scenarioALookup 0 []
      ⟨none, some (hmacHexDigest (strOf "sec") (strOf "rawbody")), some (strOf "push"),
       strOf "rawbody",
       ⟨strOf "refs/heads/main", 42, strOf "main", [],
        some (strOf "[GitHub Global] sync translations")⟩⟩).2 = false :=
  C5_head_marker_skip (strOf "sec") scenarioALookup 0 [] _ _ _
    (Or.inl rfl) rfl (verify_digest _ _) rfl (by decide) rfl (by decide)

/-- Claim C6: for two webhook requests carrying the same delivery identifier
within the sixty-second TTL window, the first proceeds past deduplication
(its outcome is never the duplicate response, and the identifier is
recorded with its expiry in the cleaned cache), while the second receives
the duplicate-skip response and creates no task.  The freshness hypothesis
is stated on the cleaned cache, so an expired leftover entry for the same
identifier is evicted before the first identifier check. -/
theorem C6_dedup_window (secretOpt : Option Str) (lookup : Int → Option RepoRecord)
    (now1 now2 : Nat) (cache : DeliveryCache) (id : Str) (r1 r2 : WebhookRequest)
    (h1 : r1.deliveryId = some id) (h2 : r2.deliveryId = some id)
    (hfresh : cacheHas (cleanupDeliveryCache cache now1) id = false)
    (hwin : now2 ≤ now1 + DELIVERY_CACHE_TTL) :
    (processWebhook secretOpt lookup now1 cache r1).2 ≠ Outcome.duplicateIgnored ∧
    (processWebhook secretOpt lookup now1 cache r1).1 =
      cacheSet (cleanupDeliveryCache cache now1) id (now1 + DELIVERY_CACHE_TTL) ∧
    (processWebhook secretOpt lookup now2
        (processWebhook secretOpt lookup now1 cache r1).1 r2).2 =
      Outcome.duplicateIgnored ∧
    isTaskCreated (processWebhook secretOpt lookup now2
        (processWebhook secretOpt lookup now1 cache r1).1 r2).2 = false := by
  have hstep := processWebhook_fresh secretOpt lookup now1 cache r1 id h1 hfresh
  have hsecond := second_call_dup secretOpt lookup now1 now2 cache id r2 h2 hwin
  refine ⟨?_, ?_, ?_, ?_⟩
  · rw [hstep]
    exact afterDedup_ne_dup secretOpt lookup r1
  · rw [hstep]
  · rw [hstep]
    show (processWebhook secretOpt lookup now2
        (cacheSet (cleanupDeliveryCache cache now1) id (now1 + DELIVERY_CACHE_TTL)) r2).2 = _
    rw [hsecond]
  · rw [hstep]
    show isTaskCreated (processWebhook secretOpt lookup now2
        (cacheSet (cleanupDeliveryCache cache now1) id (now1 + DELIVERY_CACHE_TTL)) r2).2 = _
    rw [hsecond]
    rfl

theorem C6_dedup_window_witness :
    (processWebhook (some (strOf "sec")) scenarioALookup 100 [(strOf "ghd-1", 5)]
      ⟨some (strOf "ghd-1"), none, none, [], scenarioAEvent⟩).2 ≠
      Outcome.duplicateIgnored ∧
    (processWebhook (some (strOf "sec")) scenarioALookup 100 [(strOf "ghd-1", 5)]
      ⟨some (strOf "ghd-1"), none, none, [], scenarioAEvent⟩).1 =
      cacheSet (cleanupDeliveryCache [(strOf "ghd-1", 5)] 100) (strOf "ghd-1")
        (100 + DELIVERY_CACHE_TTL) ∧
    (processWebhook (some (strOf "sec")) scenarioALookup 60100
        (processWebhook (some (strOf "sec")) scenarioALookup 100 [(strOf "ghd-1", 5)]
          ⟨some (strOf "ghd-1"), none, none, [], scenarioAEvent⟩).1
        ⟨some (strOf "ghd-1"), some (strOf "sha256=x"), some (strOf "push"), [],
         scenarioAEvent⟩).2 = Outcome.duplicateIgnored ∧
    isTaskCreated (processWebhook (some (strOf "sec")) scenarioALookup 60100
        (processWebhook (some (strOf "sec")) scenarioALookup 100 [(strOf "ghd-1", 5)]
          ⟨some (strOf "ghd-1"), none, none, [], scenarioAEvent⟩).1
        ⟨some (strOf "ghd-1"), some (strOf "sha256=x"), some (strOf "push"), [],
         scenarioAEvent⟩).2 = false :=
  C6_dedup_window (some (strOf "sec")) scenarioALookup 100 60100 [(strOf "ghd-1", 5)]
    (strOf "ghd-1") _ _ rfl rfl (by decide) (by decide)

/-- Claim C7: a request whose signature header is absent, or whose header
does not carry the sha256= prefix, or whose header differs from the
HMAC-SHA256 hex digest of the raw payload under the configured secret, is
answered with a 401 outcome and creates no translation task. -/
theorem C7_reject_bad_signature (secret : Str) (lookup : Int → Option RepoRecord)
    (now : Nat) (cache : DeliveryCache) (req : WebhookRequest)
    (hded : req.deliveryId = none ∨ ∃ id, req.deliveryId = some id ∧
        cacheHas (cleanupDeliveryCache cache now) id = false)
    (hbad : req.signature = none ∨ ∃ sig, req.signature = some sig ∧
        (strStartsWith sig (strOf "sha256=") = false ∨
         sig ≠ hmacHexDigest secret req.payload)) :
    statusOf (processWebhook (some secret) lookup now cache req).2 = 401 ∧
    isTaskCreated (processWebhook (some secret) lookup now cache req).2 = false := by
  have hout : afterDedup (some secret) lookup req = Outcome.missingSignature ∨
      afterDedup (some secret) lookup req = Outcome.invalidSignature := by
    rcases hbad with hnone | ⟨sig, hsig, hbad2⟩
    · left
      unfold afterDedup
      rw [hnone]
    · right
      unfold afterDedup
      rw [hsig]
      simp [verify_false_of_bad req.payload sig secret hbad2]
  rcases hded with hnone | ⟨id, hid, hfresh⟩
  · rw [processWebhook_noDelivery _ _ _ _ _ hnone]
    rcases hout with hout | hout <;> simp [hout, statusOf, isTaskCreated]
  · rw [processWebhook_fresh _ _ _ _ _ id hid hfresh]
    rcases hout with hout | hout <;> simp [hout, statusOf, isTaskCreated]

theorem C7_reject_bad_signature_witness :
    statusOf (processWebhook (some (strOf "sec")) scenarioALookup 0 []
      ⟨none, none, some (strOf "push"), strOf "rawbody", scenarioAEvent⟩).2 = 401 ∧
    isTaskCreated (processWebhook (some (strOf "sec")) scenarioALookup 0 []
      ⟨none, none, some (strOf "push"), strOf "rawbody", scenarioAEvent⟩).2 = false :=
  C7_reject_bad_signature (strOf "sec") scenarioALookup 0 [] _
    (Or.inl rfl) (Or.inl rfl)

/-- Claim C10: the delivery identifier is recorded before signature checking,
so when the first request with a given identifier fails signature
verification and is answered 401, a second request with the same identifier
inside the TTL window is answered with the duplicate skip and creates no
task, even if it is validly signed. -/
theorem C10_dedup_before_signature (secret : Str) (lookup : Int → Option RepoRecord)
    (now1 now2 : Nat) (cache : DeliveryCache) (id : Str) (r1 r2 : WebhookRequest)
    (h1 : r1.deliveryId = some id) (h2 : r2.deliveryId = some id)
    (hfresh : cacheHas (cleanupDeliveryCache cache now1) id = false)
    (hwin : now2 ≤ now1 + DELIVERY_CACHE_TTL)
    (hbad : r1.signature = none ∨ ∃ sig, r1.signature = some sig ∧
        (strStartsWith sig (strOf "sha256=") = false ∨
         sig ≠ hmacHexDigest secret r1.payload)) :
    statusOf (processWebhook (some secret) lookup now1 cache r1).2 = 401 ∧
    (processWebhook (some secret) lookup now2
        (processWebhook (some secret) lookup now1 cache r1).1 r2).2 =
      Outcome.duplicateIgnored ∧
    isTaskCreated (processWebhook (some secret) lookup now2
        (processWebhook (some secret) lookup now1 cache r1).1 r2).2 = false := by
  have hstep := processWebhook_fresh (some secret) lookup now1 cache r1 id h1 hfresh
  have hsecond := second_call_dup (some secret) lookup now1 now2 cache id r2 h2 hwin
  have hout : afterDedup (some secret) lookup r1 = Outcome.missingSignature ∨
      afterDedup (some secret) lookup r1 = Outcome.invalidSignature := by
    rcases hbad with hnone | ⟨sig, hsig, hbad2⟩
    · left
      unfold afterDedup
      rw [hnone]
    · right
      unfold afterDedup
      rw [hsig]
      simp [verify_false_of_bad r1.payload sig secret hbad2]
  refine ⟨?_, ?_, ?_⟩
  · rw [hstep]
    rcases hout with hout | hout <;> simp [hout, statusOf]
  · rw [hstep]
    show (processWebhook (some secret) lookup now2
        (cacheSet (cleanupDeliveryCache cache now1) id (now1 + DELIVERY_CACHE_TTL)) r2).2 = _
    rw [hsecond]
  · rw [hstep]
    show isTaskCreated (processWebhook (some secret) lookup now2
        (cacheSet (cleanupDeliveryCache cache now1) id (now1 + DELIVERY_CACHE_TTL)) r2).2 = _
    rw [hsecond]
    rfl

theorem C10_dedup_before_signature_witness :
    statusOf (processWebhook (some (strOf "sec")) scenarioALookup 100 []
      ⟨some (strOf "ghd-2"), some (strOf "bogus"), some (strOf "push"), strOf "rawbody",
       scenarioAEvent⟩).2 = 401 ∧
    (processWebhook (some (strOf "sec")) scenarioALookup 200
        (processWebhook (some (strOf "sec")) scenarioALookup 100 []
          ⟨some (strOf "ghd-2"), some (strOf "bogus"), some (strOf "push"), strOf "rawbody",
           scenarioAEvent⟩).1
        ⟨some (strOf "ghd-2"),
         some (hmacHexDigest (strOf "sec") (strOf "rawbody")), some (strOf "push"),
         strOf "rawbody", scenarioAEvent⟩).2 = Outcome.duplicateIgnored ∧
    isTaskCreated (processWebhook (some (strOf "sec")) scenarioALookup 200
        (processWebhook (some (strOf "sec")) scenarioALookup 100 []
          ⟨some (strOf "ghd-2"), some (strOf "bogus"), some (strOf "push"), strOf "rawbody",
           scenarioAEvent⟩).1
        ⟨some (strOf "ghd-2"),
         some (hmacHexDigest (strOf "sec") (strOf "rawbody")), some (strOf "push"),
         strOf "rawbody", scenarioAEvent⟩).2 = false :=
  C10_dedup_before_signature (strOf "sec") scenarioALookup 100 200 [] (strOf "ghd-2") _ _
    rfl rfl (by decide) (by decide)
    (Or.inr ⟨strOf "bogus", rfl, Or.inl (by decide)⟩)

theorem includeGate_true_iff (inc : Option (List Str)) (f : Str) :
    includeGate inc f = some true ↔
      (∀ il, inc = some il → il ≠ [] → someMatch il f = some true) := by
  cases inc with
  | none => simp [includeGate]
  | some il =>
    cases il with
    | nil => simp [includeGate]
    | cons p ps =>
      unfold includeGate
      simp only [List.length_cons, Option.some.injEq]
      constructor
      · intro h il hil hne
        cases hil
        simpa using h
      · intro h
        simpa using h (p :: ps) rfl (by simp)

theorem excludeGate_true_iff (exc : Option (List Str)) (f : Str) (k : Option Bool) :
    excludeGate exc f k = some true ↔
      ((∀ ex, exc = some ex → someMatch ex f = some false) ∧ k = some true) := by
  cases exc with
  | none => simp [excludeGate]
  | some ex =>
    unfold excludeGate
    cases hsm : someMatch ex f with
    | none => simp [hsm]
    | some b =>
      cases b with
      | true =>
        simp only [hsm]
        constructor
        · intro h
          cases h
        · rintro ⟨ha, -⟩
          have := ha ex rfl
          rw [hsm] at this
          cases this
      | false =>
        simp only [hsm]
        constructor
        · intro h
          refine ⟨?_, h⟩
          intro ex2 hex2
          cases hex2
          exact hsm
        · rintro ⟨-, h⟩
          exact h

theorem shouldTranslate_true_iff (inc exc : Option (List Str)) (f : Str) :
    shouldTranslate inc exc f = some true ↔
      ((strEndsWith f (strOf ".md") = true ∨ strEndsWith f (strOf ".mdx") = true) ∧
       strStartsWith f (strOf "translations/") = false ∧
       (∀ ex, exc = some ex → someMatch ex f = some false) ∧
       (∀ il, inc = some il → il ≠ [] → someMatch il f = some true)) := by
  unfold shouldTranslate
  by_cases hmd : (!strEndsWith f (strOf ".md") && !strEndsWith f (strOf ".mdx")) = true
  · rw [if_pos hmd]
    simp only [Bool.and_eq_true, Bool.not_eq_true'] at hmd
    constructor
    · intro h
      cases h
    · rintro ⟨h1, -, -, -⟩
      rcases h1 with h1 | h1
      · rw [h1] at hmd
        cases hmd.1
      · rw [h1] at hmd
        cases hmd.2
  · rw [if_neg hmd]
    simp only [Bool.and_eq_true, Bool.not_eq_true', not_and_or] at hmd
    have hmd2 : strEndsWith f (strOf ".md") = true ∨ strEndsWith f (strOf ".mdx") = true := by
      rcases hmd with h | h
      · left
        revert h
        cases strEndsWith f (strOf ".md") <;> simp
      · right
        revert h
        cases strEndsWith f (strOf ".mdx") <;> simp
    by_cases htr : strStartsWith f (strOf "translations/") = true
    · rw [if_pos htr]
      constructor
      · intro h
        cases h
      · rintro ⟨-, h2, -, -⟩
        rw [htr] at h2
        cases h2
    · rw [if_neg htr]
      rw [excludeGate_true_iff, includeGate_true_iff]
      constructor
      · rintro ⟨hx, hi⟩
        exact ⟨hmd2, by simpa using htr, hx, hi⟩
      · rintro ⟨-, -, hx, hi⟩
        exact ⟨hx, hi⟩

theorem filter_mem_iff (files : List Str) (inc exc : Option (List Str)) (res : List Str)
    (h : filterFilesToTranslate files inc exc = some res) :
    List.Sublist res files ∧
    (∀ f, f ∈ res ↔ (f ∈ files ∧ shouldTranslate inc exc f = some true)) := by
  induction files generalizing res with
  | nil =>
    unfold filterFilesToTranslate at h
    cases h
    simp
  | cons g gs ih =>
    unfold filterFilesToTranslate at h
    cases hg : shouldTranslate inc exc g with
    | none => rw [hg] at h; cases h
    | some b =>
      rw [hg] at h
      simp only at h
      cases hrec : filterFilesToTranslate gs inc exc with
      | none => rw [hrec] at h; cases h
      | some rest =>
        rw [hrec] at h
        simp only [Option.some.injEq] at h
        obtain ⟨hsub, hmem⟩ := ih rest hrec
        cases b with
        | true =>
          subst h
          refine ⟨List.Sublist.cons₂ g hsub, ?_⟩
          intro f
          constructor
          · intro hf
            rcases List.mem_cons.mp hf with hf | hf
            · subst hf
              exact ⟨List.mem_cons_self _ _, hg⟩
            · obtain ⟨h1, h2⟩ := (hmem f).mp hf
              exact ⟨List.mem_cons_of_mem _ h1, h2⟩
          · rintro ⟨h1, h2⟩
            rcases List.mem_cons.mp h1 with h1 | h1
            · subst h1
              exact List.mem_cons_self _ _
            · exact List.mem_cons_of_mem _ ((hmem f).mpr ⟨h1, h2⟩)
        | false =>
          subst h
          refine ⟨List.Sublist.cons g hsub, ?_⟩
          intro f
          constructor
          · intro hf
            obtain ⟨h1, h2⟩ := (hmem f).mp hf
            exact ⟨List.mem_cons_of_mem _ h1, h2⟩
          · rintro ⟨h1, h2⟩
            rcases List.mem_cons.mp h1 with h1 | h1
            · subst h1
              rw [hg] at h2
              cases h2
            · exact (hmem f).mpr ⟨h1, h2⟩

/-- Claim C8 counterexample: when every input survives, the filter returns
its whole input, so the result is not a strict subset. -/
theorem C8_counterexample :
    filterFilesToTranslate [strOf "a.md"] none none = some [strOf "a.md"] ∧
    ¬ ∃ f ∈ ([strOf "a.md"] : List Str), f ∉ ([strOf "a.md"] : List Str) := by
  constructor
  · decide
  · rintro ⟨f, hf, hnf⟩
    exact hnf hf

/-- Claim C8 (amended): when the filter returns without throwing, the result
is a sublist (hence a subset, not necessarily strict) of the input, and a
path belongs to it exactly when it occurs in the input, ends in .md or
.mdx, does not start with the translations/ prefix, matches no configured
exclude pattern (so an exclude match drops a path even when an include
pattern also matches), and, when a non-empty include list is configured,
matches at least one include pattern (an empty or absent include list
imposes no restriction). -/
theorem C8_filter_characterization (files : List Str) (inc exc : Option (List Str))
    (res : List Str) (h : filterFilesToTranslate files inc exc = some res) :
    List.Sublist res files ∧
    (∀ f, f ∈ res ↔
      (f ∈ files ∧
       (strEndsWith f (strOf ".md") = true ∨ strEndsWith f (strOf ".mdx") = true) ∧
       strStartsWith f (strOf "translations/") = false ∧
       (∀ ex, exc = some ex → someMatch ex f = some false) ∧
       (∀ il, inc = some il → il ≠ [] → someMatch il f = some true))) ∧
    (∀ f ex, exc = some ex → someMatch ex f = some true → f ∉ res) := by
  obtain ⟨hsub, hmem⟩ := filter_mem_iff files inc exc res h
  refine ⟨hsub, ?_, ?_⟩
  · intro f
    rw [hmem f, shouldTranslate_true_iff]
  · intro f ex hex hsm hf
    obtain ⟨-, h2⟩ := (hmem f).mp hf
    obtain ⟨-, -, hx, -⟩ := (shouldTranslate_true_iff inc exc f).mp h2
    have := hx ex hex
    rw [hsm] at this
    cases this

theorem C8_filter_characterization_witness :
    List.Sublist [strOf "a.md"] [strOf "a.md", strOf "b.md", strOf "c.txt"] ∧
    (∀ f, f ∈ ([strOf "a.md"] : List Str) ↔
      (f ∈ [strOf "a.md", strOf "b.md", strOf "c.txt"] ∧
       (strEndsWith f (strOf ".md") = true ∨ strEndsWith f (strOf ".mdx") = true) ∧
       strStartsWith f (strOf "translations/") = false ∧
       (∀ ex, (some [strOf "b*"] : Option (List Str)) = some ex →
         someMatch ex f = some false) ∧
       (∀ il, (some [strOf "*.md"] : Option (List Str)) = some il → il ≠ [] →
         someMatch il f = some true))) ∧
    (∀ f ex, (some [strOf "b*"] : Option (List Str)) = some ex →
      someMatch ex f = some true → f ∉ ([strOf "a.md"] : List Str)) :=
  C8_filter_characterization [strOf "a.md", strOf "b.md", strOf "c.txt"]
    (some [strOf "*.md"]) (some [strOf "b*"]) [strOf "a.md"] (by decide)

/-! Lemmas about splitting and joining paths. -/

theorem splitChar_ne_nil (c : Char) (s : Str) : splitChar c s ≠ [] := by
  cases s with
  | nil => simp [splitChar]
  | cons x xs =>
    unfold splitChar
    by_cases hx : x = c
    · simp [hx]
    · simp only [hx, if_false]
      cases splitChar c xs <;> simp

theorem not_mem_of_mem_splitChar (c : Char) (s : Str) (t : Str)
    (ht : t ∈ splitChar c s) : c ∉ t := by
  induction s generalizing t with
  | nil =>
    simp [splitChar] at ht
    simp [ht]
  | cons x xs ih =>
    unfold splitChar at ht
    by_cases hx : x = c
    · simp only [hx, if_true] at ht
      rcases List.mem_cons.mp ht with ht | ht
      · simp [ht]
      · exact ih t ht
    · simp only [hx, if_false] at ht
      cases hsp : splitChar c xs with
      | nil => exact absurd hsp (splitChar_ne_nil c xs)
      | cons h0 hrest =>
        rw [hsp] at ht
        rcases List.mem_cons.mp ht with ht | ht
        · subst ht
          intro hc
          rcases List.mem_cons.mp hc with hc | hc
          · exact hx hc.symm
          · exact ih h0 (by rw [hsp]; exact List.mem_cons_self _ _) hc
        · exact ih t (by rw [hsp]; exact List.mem_cons_of_mem _ ht)

theorem mem_of_mem_splitChar (c : Char) (s : Str) (t : Str) (a : Char)
    (ht : t ∈ splitChar c s) (ha : a ∈ t) : a ∈ s := by
  induction s generalizing t with
  | nil =>
    simp [splitChar] at ht
    subst ht
    cases ha
  | cons x xs ih =>
    unfold splitChar at ht
    by_cases hx : x = c
    · simp only [hx, if_true] at ht
      rcases List.mem_cons.mp ht with ht | ht
      · subst ht
        cases ha
      · exact List.mem_cons_of_mem _ (ih t ht ha)
    · simp only [hx, if_false] at ht
      cases hsp : splitChar c xs with
      | nil => exact absurd hsp (splitChar_ne_nil c xs)
      | cons h0 hrest =>
        rw [hsp] at ht
        rcases List.mem_cons.mp ht with ht | ht
        · subst ht
          rcases List.mem_cons.mp ha with ha | ha
          · exact ha ▸ List.mem_cons_self _ _
          · exact List.mem_cons_of_mem _
              (ih h0 (by rw [hsp]; exact List.mem_cons_self _ _) ha)
        · exact List.mem_cons_of_mem _
            (ih t (by rw [hsp]; exact List.mem_cons_of_mem _ ht) ha)

theorem splitChar_of_not_mem (c : Char) (s : Str) (h : c ∉ s) :
    splitChar c s = [s] := by
  induction s with
  | nil => rfl
  | cons x xs ih =>
    unfold splitChar
    have hx : ¬ x = c := by
      intro hx
      exact h (hx ▸ List.mem_cons_self _ _)
    simp only [hx, if_false]
    rw [ih (fun hc => h (List.mem_cons_of_mem _ hc))]

theorem splitChar_append_cons (c : Char) (x t : Str) (hx : c ∉ x) :
    splitChar c (x ++ c :: t) = x :: splitChar c t := by
  induction x with
  | nil =>
    show splitChar c (c :: t) = [] :: splitChar c t
    rw [splitChar, if_pos rfl]
  | cons y ys ih =>
    have hy : ¬ y = c := fun hy => hx (hy ▸ List.mem_cons_self _ _)
    have ih2 := ih (fun hc => hx (List.mem_cons_of_mem _ hc))
    show splitChar c (y :: (ys ++ c :: t)) = (y :: ys) :: splitChar c t
    rw [splitChar, if_neg hy, ih2]

theorem splitChar_joinSlash (l : List Str) (hne : l ≠ [])
    (h : ∀ t ∈ l, '/' ∉ t) : splitChar '/' (joinSlash l) = l := by
  induction l with
  | nil => exact absurd rfl hne
  | cons x xs ih =>
    cases xs with
    | nil =>
      unfold joinSlash
      exact splitChar_of_not_mem '/' x (h x (List.mem_cons_self _ _))
    | cons y ys =>
      show splitChar '/' (x ++ '/' :: joinSlash (y :: ys)) = _
      rw [splitChar_append_cons '/' x _ (h x (List.mem_cons_self _ _))]
      rw [ih (by simp) (fun t htm => h t (List.mem_cons_of_mem _ htm))]

/-! Provenance of the characters produced by the fallback transliteration. -/

mutual
theorem mem_collapseRuns (p : Char → Bool) (r : Char) (s : Str) (a : Char)
    (h : a ∈ collapseRuns p r s) : a = r ∨ (a ∈ s ∧ p a = false) := by
  cases s with
  | nil => cases h
  | cons c cs =>
    unfold collapseRuns at h
    by_cases hc : p c = true
    · rw [if_pos hc] at h
      rcases mem_insideRun p r cs a h with h2 | h2
      · exact Or.inl h2
      · exact Or.inr ⟨List.mem_cons_of_mem _ h2.1, h2.2⟩
    · rw [if_neg hc] at h
      rcases List.mem_cons.mp h with h2 | h2
      · subst h2
        exact Or.inr ⟨List.mem_cons_self _ _, by revert hc; cases p a <;> simp⟩
      · rcases mem_collapseRuns p r cs a h2 with h3 | h3
        · exact Or.inl h3
        · exact Or.inr ⟨List.mem_cons_of_mem _ h3.1, h3.2⟩

theorem mem_insideRun (p : Char → Bool) (r : Char) (s : Str) (a : Char)
    (h : a ∈ insideRun p r s) : a = r ∨ (a ∈ s ∧ p a = false) := by
  cases s with
  | nil =>
    unfold insideRun at h
    rcases List.mem_cons.mp h with h2 | h2
    · exact Or.inl h2
    · cases h2
  | cons c cs =>
    unfold insideRun at h
    by_cases hc : p c = true
    · rw [if_pos hc] at h
      rcases mem_insideRun p r cs a h with h2 | h2
      · exact Or.inl h2
      · exact Or.inr ⟨List.mem_cons_of_mem _ h2.1, h2.2⟩
    · rw [if_neg hc] at h
      rcases List.mem_cons.mp h with h2 | h2
      · exact Or.inl h2
      · rcases List.mem_cons.mp h2 with h3 | h3
        · subst h3
          exact Or.inr ⟨List.mem_cons_self _ _, by revert hc; cases p a <;> simp⟩
        · rcases mem_collapseRuns p r cs a h3 with h4 | h4
          · exact Or.inl h4
          · exact Or.inr ⟨List.mem_cons_of_mem _ h4.1, h4.2⟩
end

theorem mem_trimHyphens (s : Str) (a : Char) (h : a ∈ trimHyphens s) : a ∈ s := by
  unfold trimHyphens at h
  rw [List.mem_reverse] at h
  have h2 := (List.dropWhile_sublist _).subset h
  rw [List.mem_reverse] at h2
  exact (List.dropWhile_sublist _).subset h2

theorem mem_hyphenize (s : Str) (a : Char) (h : a ∈ hyphenize s) :
    a = '-' ∨ (a ∈ s ∧ isNonAsciiChar a = false) := by
  unfold hyphenize collapseHyphens at h
  rcases mem_collapseRuns _ _ _ _ h with h2 | h2
  · exact Or.inl h2
  · have h3 := mem_trimHyphens _ _ h2.1
    unfold replaceNonAsciiRuns at h3
    rcases mem_collapseRuns _ _ _ _ h3 with h4 | h4
    · exact Or.inl h4
    · exact Or.inr h4

theorem hyphenize_ascii (s : Str) : containsNonAscii (hyphenize s) = false := by
  unfold containsNonAscii
  rw [List.any_eq_false]
  intro a ha
  rcases mem_hyphenize s a ha with h | h
  · subst h
    decide
  · exact by simp [h.2]

theorem hyphenize_no_slash (s : Str) (h : '/' ∉ s) : '/' ∉ hyphenize s := by
  intro hc
  rcases mem_hyphenize s _ hc with h2 | h2
  · cases h2
  · exact h h2.1

theorem mem_replaceFirst (pat repl s : Str) (a : Char)
    (h : a ∈ replaceFirst pat repl s) : a ∈ s ∨ a ∈ repl := by
  induction s with
  | nil =>
    unfold replaceFirst at h
    by_cases hp : pat = []
    · rw [if_pos hp] at h
      exact Or.inr h
    · rw [if_neg hp] at h
      cases h
  | cons c cs ih =>
    unfold replaceFirst at h
    by_cases hp : strStartsWith (c :: cs) pat = true
    · rw [if_pos hp] at h
      rcases List.mem_append.mp h with h2 | h2
      · exact Or.inr h2
      · exact Or.inl (List.mem_of_mem_drop h2)
    · rw [if_neg hp] at h
      rcases List.mem_cons.mp h with h2 | h2
      · exact Or.inl (h2 ▸ List.mem_cons_self _ _)
      · rcases ih h2 with h3 | h3
        · exact Or.inl (List.mem_cons_of_mem _ h3)
        · exact Or.inr h3

/-! Facts about the static dictionary and the per-segment translations. -/

theorem mapping_values_ok :
    FILENAME_MAPPING.all
      (fun pr => !containsNonAscii pr.2 && !pr.2.contains '/' && !(pr.2 = [])) = true := by
  decide

theorem lookupMapping_ok (k v : Str) (h : lookupMapping k = some v) :
    containsNonAscii v = false ∧ '/' ∉ v ∧ v ≠ [] := by
  unfold lookupMapping at h
  cases hf : List.find? (fun pr => pr.1 = k) FILENAME_MAPPING with
  | none => rw [hf] at h; cases h
  | some pr =>
    rw [hf] at h
    have hmem := List.mem_of_find?_eq_some hf
    have hall := List.all_eq_true.mp mapping_values_ok pr hmem
    simp only [Bool.and_eq_true, Bool.not_eq_true'] at hall
    have hv : pr.2 = v := by simpa using h
    subst hv
    refine ⟨hall.1.1, ?_, by simpa using hall.2⟩
    intro hc
    have := hall.1.2
    rw [List.contains_eq_any_beq] at this
    rw [List.any_eq_false] at this
    have := this '/' hc
    simp at this

theorem substMatch_shape (n : Str) (l : List (Str × Str)) (r : Str)
    (h : substMatch n l = some r) :
    ∃ pr, pr ∈ l ∧ r = replaceFirst pr.1 pr.2 n := by
  induction l with
  | nil => cases h
  | cons pr rest ih =>
    unfold substMatch at h
    by_cases hm : strIncludes n pr.1 = true
    · rw [if_pos hm] at h
      exact ⟨pr, List.mem_cons_self _ _, by simpa using h.symm⟩
    · rw [if_neg hm] at h
      rcases ih h with ⟨pr2, hpr2, hr⟩
      exact ⟨pr2, List.mem_cons_of_mem _ hpr2, hr⟩

theorem substMatch_no_slash (n : Str) (r : Str) (hn : '/' ∉ n)
    (h : substMatch n FILENAME_MAPPING = some r) : '/' ∉ r := by
  rcases substMatch_shape n FILENAME_MAPPING r h with ⟨pr, hmem, hr⟩
  subst hr
  intro hc
  rcases mem_replaceFirst _ _ _ _ hc with h2 | h2
  · exact hn h2
  · have hall := List.all_eq_true.mp mapping_values_ok pr hmem
    simp only [Bool.and_eq_true, Bool.not_eq_true'] at hall
    have := hall.1.2
    rw [List.contains_eq_any_beq, List.any_eq_false] at this
    have := this '/' h2
    simp at this

theorem translatedNameOf_ascii (n : Str) :
    containsNonAscii (translatedNameOf n) = false := by
  unfold translatedNameOf
  cases h1 : (if jsFalsy (lookupMapping n) = true then
      match substMatch n FILENAME_MAPPING with
      | some r => some r
      | none => lookupMapping n
    else lookupMapping n) with
  | none =>
    simp only [h1]
    split
    · decide
    · exact hyphenize_ascii n
  | some t =>
    simp only [h1]
    by_cases h2 : (decide (t = []) || containsNonAscii t) = true
    · rw [if_pos h2]
      split
      · decide
      · exact hyphenize_ascii n
    · rw [if_neg h2]
      simp only [Bool.or_eq_true] at h2
      push_neg at h2
      revert h2
      cases containsNonAscii t <;> simp

theorem translatedNameOf_ne_nil (n : Str) : translatedNameOf n ≠ [] := by
  unfold translatedNameOf
  cases h1 : (if jsFalsy (lookupMapping n) = true then
      match substMatch n FILENAME_MAPPING with
      | some r => some r
      | none => lookupMapping n
    else lookupMapping n) with
  | none =>
    simp only [h1]
    split
    · decide
    · rename_i hcond
      simp only [Bool.or_eq_true, decide_eq_true_eq] at hcond
      intro hc
      exact hcond (Or.inl hc)
  | some t =>
    simp only [h1]
    by_cases h2 : (decide (t = []) || containsNonAscii t) = true
    · rw [if_pos h2]
      split
      · decide
      · rename_i hcond
        simp only [Bool.or_eq_true, decide_eq_true_eq] at hcond
        intro hc
        exact hcond (Or.inl hc)
    · rw [if_neg h2]
      simp only [Bool.or_eq_true] at h2
      push_neg at h2
      intro hc
      have := h2.1
      simp [hc] at this

theorem translatedNameOf_no_slash (n : Str) (hn : '/' ∉ n) :
    '/' ∉ translatedNameOf n := by
  have hfb : '/' ∉ (if (decide (hyphenize n = []) || decide (hyphenize n = ['-'])) = true
      then strOf "document" else hyphenize n) := by
    split
    · decide
    · exact hyphenize_no_slash n hn
  unfold translatedNameOf
  cases h1 : (if jsFalsy (lookupMapping n) = true then
      match substMatch n FILENAME_MAPPING with
      | some r => some r
      | none => lookupMapping n
    else lookupMapping n) with
  | none =>
    simp only [h1]
    exact hfb
  | some t =>
    simp only [h1]
    by_cases h2 : (decide (t = []) || containsNonAscii t) = true
    · rw [if_pos h2]
      exact hfb
    · rw [if_neg h2]
      -- t came either from the exact dictionary lookup or from the
      -- substring replacement; both stay inside n and the dictionary values
      by_cases hj : jsFalsy (lookupMapping n) = true
      · rw [if_pos hj] at h1
        cases hs : substMatch n FILENAME_MAPPING with
        | none =>
          rw [hs] at h1
          simp only at h1
          cases hlk : lookupMapping n with
          | none => rw [hlk] at h1; cases h1
          | some v =>
            rw [hlk] at h1
            have hv : v = t := by simpa using h1
            subst hv
            exact (lookupMapping_ok n v hlk).2.1
        | some r =>
          rw [hs] at h1
          have hr : r = t := by simpa using h1
          subst hr
          exact substMatch_no_slash n r hn hs
      · rw [if_neg hj] at h1
        exact (lookupMapping_ok n t h1).2.1

theorem dirTranslate_ascii (part : Str) (hpart : containsNonAscii part = true) :
    containsNonAscii (dirTranslate part) = false := by
  unfold dirTranslate
  rw [if_pos hpart]
  cases hlk : lookupMapping part with
  | none =>
    simp only
    split
    · decide
    · exact hyphenize_ascii part
  | some v =>
    simp only
    split
    · split
      · decide
      · exact hyphenize_ascii part
    · exact (lookupMapping_ok part v hlk).1

theorem dirTranslate_id (part : Str) (hpart : containsNonAscii part = false) :
    dirTranslate part = part := by
  unfold dirTranslate
  rw [if_neg (by simp [hpart])]

theorem dirTranslate_ascii_any (part : Str) :
    containsNonAscii (dirTranslate part) = false := by
  cases hpart : containsNonAscii part with
  | true => exact dirTranslate_ascii part hpart
  | false => rw [dirTranslate_id part hpart]; exact hpart

theorem dirTranslate_no_slash (part : Str) (hp : '/' ∉ part) :
    '/' ∉ dirTranslate part := by
  unfold dirTranslate
  split
  · cases hlk : lookupMapping part with
    | none =>
      simp only
      split
      · decide
      · exact hyphenize_no_slash part hp
    | some v =>
      simp only
      split
      · split
        · decide
        · exact hyphenize_no_slash part hp
      · exact (lookupMapping_ok part v hlk).2.1
  · exact hp

/-! Lemmas about the extension split of a filename. -/

theorem lastIndexOfC_of_not_mem (c : Char) (s : Str) (h : c ∉ s) :
    lastIndexOfC c s = -1 := by
  induction s with
  | nil => rfl
  | cons x xs ih =>
    unfold lastIndexOfC
    have hr : lastIndexOfC c xs = -1 := ih (fun hc => h (List.mem_cons_of_mem _ hc))
    rw [hr]
    have hx : ¬ x = c := fun hx => h (hx ▸ List.mem_cons_self _ _)
    simp [hx]

theorem lastIndexOfC_append_cons (c : Char) (a b : Str) (hb : c ∉ b) :
    lastIndexOfC c (a ++ c :: b) = Int.ofNat a.length := by
  induction a with
  | nil =>
    show lastIndexOfC c (c :: b) = 0
    unfold lastIndexOfC
    rw [lastIndexOfC_of_not_mem c b hb]
    simp
  | cons x xs ih =>
    show lastIndexOfC c (x :: (xs ++ c :: b)) = _
    unfold lastIndexOfC
    rw [ih]
    simp only [Int.ofNat_eq_coe]
    rw [if_pos (by positivity)]
    simp only [List.length_cons]
    push_cast
    ring

theorem lastIndexOfC_spec (c : Char) (s : Str) :
    (lastIndexOfC c s = -1 ∧ c ∉ s) ∨
    (∃ a b, s = a ++ c :: b ∧ c ∉ b ∧ lastIndexOfC c s = Int.ofNat a.length) := by
  induction s with
  | nil => exact Or.inl ⟨rfl, by simp⟩
  | cons x xs ih =>
    rcases ih with ⟨h1, h2⟩ | ⟨a, b, hab, hb, hlen⟩
    · by_cases hx : x = c
      · subst hx
        exact Or.inr ⟨[], xs, rfl, h2, by
          unfold lastIndexOfC
          rw [h1]
          simp⟩
      · refine Or.inl ⟨?_, ?_⟩
        · unfold lastIndexOfC
          rw [h1]
          simp [hx]
        · intro hc
          rcases List.mem_cons.mp hc with hc | hc
          · exact hx hc.symm
          · exact h2 hc
    · refine Or.inr ⟨x :: a, b, by rw [hab]; rfl, hb, ?_⟩
      unfold lastIndexOfC
      rw [hlen]
      simp only [Int.ofNat_eq_coe, List.length_cons]
      rw [if_pos (by positivity)]
      push_cast
      ring

theorem nameWithoutExt_decomp (fn : Str) (h : 0 < lastDotIndexOf fn) :
    ∃ b, fn = nameWithoutExtOf fn ++ extensionOf fn ∧
      extensionOf fn = '.' :: b ∧ '.' ∉ b ∧ nameWithoutExtOf fn ≠ [] := by
  unfold lastDotIndexOf at h
  rcases lastIndexOfC_spec '.' fn with ⟨h1, -⟩ | ⟨a, b, hab, hb, hlen⟩
  · rw [h1] at h
    exact absurd h (by decide)
  · have hpos : (0:Int) < Int.ofNat a.length := by
      rw [← hlen]
      exact h
    have hext : extensionOf fn = '.' :: b := by
      unfold extensionOf lastDotIndexOf
      rw [hlen, if_pos hpos]
      show List.drop a.length fn = '.' :: b
      rw [hab]
      exact List.drop_left a ('.' :: b)
    have hnwe : nameWithoutExtOf fn = a := by
      unfold nameWithoutExtOf lastDotIndexOf
      rw [hlen, if_pos hpos]
      show List.take a.length fn = a
      rw [hab]
      exact List.take_left a ('.' :: b)
    refine ⟨b, ?_, hext, hb, ?_⟩
    · rw [hext, hnwe, hab]
    · rw [hnwe]
      intro hc
      subst hc
      rw [hlen] at h
      exact absurd h (by decide)

theorem nameWithoutExt_of_ascii (fn : Str) (h : containsNonAscii fn = false) :
    containsNonAscii (nameWithoutExtOf fn) = false := by
  unfold nameWithoutExtOf
  split
  · unfold containsNonAscii at h ⊢
    rw [List.any_eq_false] at h ⊢
    intro a ha
    exact h a (List.mem_of_mem_take ha)
  · exact h

theorem nameWithoutExt_append_ext (t b : Str) (ht : t ≠ []) (hb : '.' ∉ b) :
    nameWithoutExtOf (t ++ '.' :: b) = t := by
  have hidx : lastDotIndexOf (t ++ '.' :: b) = Int.ofNat t.length :=
    lastIndexOfC_append_cons '.' t b hb
  have hpos : (0:Int) < Int.ofNat t.length :=
    Int.ofNat_pos.mpr (List.length_pos.mpr ht)
  unfold nameWithoutExtOf
  rw [hidx, if_pos hpos]
  show List.take t.length (t ++ '.' :: b) = t
  exact List.take_left t ('.' :: b)

/-! Structure of the translated segment list. -/

theorem mapSegs_eq_dropLast (nf : Str) (l : List Str) (h : l ≠ []) :
    mapSegs nf l = l.dropLast.map dirTranslate ++ [nf] := by
  induction l with
  | nil => exact absurd rfl h
  | cons x xs ih =>
    cases xs with
    | nil => rfl
    | cons y ys =>
      show dirTranslate x :: mapSegs nf (y :: ys) = _
      rw [ih (by simp)]
      rfl

theorem getLastD_mem (l : List Str) (d : Str) (h : l ≠ []) : l.getLastD d ∈ l := by
  induction l with
  | nil => exact absurd rfl h
  | cons x xs ih =>
    cases xs with
    | nil => simp [List.getLastD]
    | cons y ys =>
      show (y :: ys).getLastD x ∈ x :: y :: ys
      have h2 : (y :: ys).getLastD x = (y :: ys).getLastD d := by
        simp [List.getLastD]
      rw [h2]
      exact List.mem_cons_of_mem _ (ih (by simp))

theorem mem_nameWithoutExt (fn : Str) (a : Char) (h : a ∈ nameWithoutExtOf fn) :
    a ∈ fn := by
  unfold nameWithoutExtOf at h
  split at h
  · exact List.mem_of_mem_take h
  · exact h

theorem mem_extensionOf (fn : Str) (a : Char) (h : a ∈ extensionOf fn) : a ∈ fn := by
  unfold extensionOf at h
  split at h
  · exact List.mem_of_mem_drop h
  · cases h

theorem pathFilename_no_slash (p : Str) : '/' ∉ pathFilename p :=
  not_mem_of_mem_splitChar '/' p _ (getLastD_mem _ [] (splitChar_ne_nil '/' p))

theorem newFilenameOf_no_slash (p : Str) : '/' ∉ newFilenameOf p := by
  unfold newFilenameOf
  intro hc
  rcases List.mem_append.mp hc with h | h
  · exact translatedNameOf_no_slash _
      (fun hm => pathFilename_no_slash p (mem_nameWithoutExt _ _ hm)) h
  · exact pathFilename_no_slash p (mem_extensionOf _ _ h)

theorem split_translateFilename (p : Str)
    (h : containsNonAscii (nameWithoutExtOf (pathFilename p)) = true) :
    splitChar '/' (translateFilename p) =
      (splitChar '/' p).dropLast.map dirTranslate ++ [newFilenameOf p] := by
  have hexp : translateFilename p =
      joinSlash (mapSegs (newFilenameOf p) (splitChar '/' p)) := by
    unfold translateFilename
    rw [h]
    rfl
  rw [hexp, mapSegs_eq_dropLast _ _ (splitChar_ne_nil '/' p)]
  apply splitChar_joinSlash
  · simp
  · intro t ht
    rcases List.mem_append.mp ht with ht | ht
    · rcases List.mem_map.mp ht with ⟨seg, hseg, hteq⟩
      subst hteq
      apply dirTranslate_no_slash
      exact not_mem_of_mem_splitChar '/' p seg ((List.dropLast_sublist _).subset hseg)
    · rcases List.mem_cons.mp ht with ht | ht
      · subst ht
        exact newFilenameOf_no_slash p
      · cases ht

theorem newFilenameOf_nwe_ascii (p : Str) :
    containsNonAscii (nameWithoutExtOf (newFilenameOf p)) = false := by
  by_cases hdot : 0 < lastDotIndexOf (pathFilename p)
  · rcases nameWithoutExt_decomp (pathFilename p) hdot with ⟨b, -, hext, hb, -⟩
    have : newFilenameOf p =
        translatedNameOf (nameWithoutExtOf (pathFilename p)) ++ '.' :: b := by
      unfold newFilenameOf
      rw [hext]
    rw [this, nameWithoutExt_append_ext _ _ (translatedNameOf_ne_nil _) hb]
    exact translatedNameOf_ascii _
  · have hext : extensionOf (pathFilename p) = [] := by
      unfold extensionOf
      rw [if_neg hdot]
    have : newFilenameOf p = translatedNameOf (nameWithoutExtOf (pathFilename p)) := by
      unfold newFilenameOf
      rw [hext, List.append_nil]
    rw [this]
    exact nameWithoutExt_of_ascii _ (translatedNameOf_ascii _)

/-- Claim C4 counterexample: the directory segment 介绍 is non-ASCII and the
per-segment translation would map it to Introduction, yet because the final
filename (readme) is pure ASCII the whole path is returned unchanged — the
transliteration is not applied independently to each segment. -/
theorem C4_counterexample :
    containsNonAscii (strOf "介绍") = true ∧
    dirTranslate (strOf "介绍") = strOf "Introduction" ∧
    translateFilename (strOf "介绍/readme.md") = strOf "介绍/readme.md" := by decide

/-- Claim C4 (amended): translateFilename consults only the final filename
(minus extension) to decide whether to transliterate at all.  When that
name is pure ASCII the path — including any non-ASCII directory segments —
is returned unchanged.  When it contains non-ASCII characters, every
directory segment is passed through the per-segment translation
(dictionary lookup or hyphen-stripping fallback, always producing ASCII,
and leaving ASCII segments unchanged) and the filename is replaced by an
ASCII name with the original extension re-attached verbatim. -/
theorem C4_translate_segments (p : Str) :
    (containsNonAscii (nameWithoutExtOf (pathFilename p)) = false →
      translateFilename p = p) ∧
    (containsNonAscii (nameWithoutExtOf (pathFilename p)) = true →
      splitChar '/' (translateFilename p) =
        (splitChar '/' p).dropLast.map dirTranslate ++
          [translatedNameOf (nameWithoutExtOf (pathFilename p)) ++
           extensionOf (pathFilename p)] ∧
      (∀ seg ∈ (splitChar '/' p).dropLast, containsNonAscii (dirTranslate seg) = false) ∧
      (∀ seg, containsNonAscii seg = false → dirTranslate seg = seg) ∧
      containsNonAscii (translatedNameOf (nameWithoutExtOf (pathFilename p))) = false) := by
  constructor
  · intro h
    unfold translateFilename
    rw [h]
    rfl
  · intro h
    refine ⟨split_translateFilename p h, ?_, ?_, translatedNameOf_ascii _⟩
    · intro seg hseg
      exact dirTranslate_ascii_any seg
    · intro seg hseg
      exact dirTranslate_id seg hseg

theorem C4_translate_segments_witness :
    translateFilename (strOf "介绍/readme.md") = strOf "介绍/readme.md" ∧
    splitChar '/' (translateFilename (strOf "编程学习/测试.md")) =
      (splitChar '/' (strOf "编程学习/测试.md")).dropLast.map dirTranslate ++
        [translatedNameOf (nameWithoutExtOf (pathFilename (strOf "编程学习/测试.md"))) ++
         extensionOf (pathFilename (strOf "编程学习/测试.md"))] :=
  ⟨(C4_translate_segments (strOf "介绍/readme.md")).1 (by decide),
   ((C4_translate_segments (strOf "编程学习/测试.md")).2 (by decide)).1⟩

/-- Claim C9: the filename transliterator is idempotent — a second
application returns its input unchanged, because after one application the
final filename (minus extension) is always ASCII, so the non-ASCII branch
never re-triggers — and it is the identity on already-ASCII paths. -/
theorem C9_transliterator_idempotent :
    (∀ p, translateFilename (translateFilename p) = translateFilename p) ∧
    (∀ p, containsNonAscii p = false → translateFilename p = p) := by
  have hid : ∀ p, containsNonAscii (nameWithoutExtOf (pathFilename p)) = false →
      translateFilename p = p := by
    intro p h
    unfold translateFilename
    rw [h]
    rfl
  constructor
  · intro p
    by_cases h : containsNonAscii (nameWithoutExtOf (pathFilename p)) = true
    · apply hid
      unfold pathFilename
      rw [split_translateFilename p h, List.getLastD_concat]
      exact newFilenameOf_nwe_ascii p
    · have h2 : containsNonAscii (nameWithoutExtOf (pathFilename p)) = false := by
        revert h
        cases containsNonAscii (nameWithoutExtOf (pathFilename p)) <;> simp
      rw [hid p h2]
      exact hid p h2
  · intro p hascii
    apply hid
    apply nameWithoutExt_of_ascii
    unfold containsNonAscii at hascii ⊢
    rw [List.any_eq_false] at hascii ⊢
    intro a ha
    exact hascii a
      (mem_of_mem_splitChar '/' p _ a (getLastD_mem _ [] (splitChar_ne_nil '/' p)) ha)

theorem C9_transliterator_idempotent_witness :
    translateFilename (translateFilename (strOf "docs/介绍.md")) =
      translateFilename (strOf "docs/介绍.md") ∧
    translateFilename (strOf "docs/guide.md") = strOf "docs/guide.md" :=
  ⟨C9_transliterator_idempotent.1 (strOf "docs/介绍.md"),
   C9_transliterator_idempotent.2 (strOf "docs/guide.md") (by decide)⟩
